import Mathlib

/-!
Verification of the crossword CSP solver (`generate.py`).

The core solver (class `CrosswordCreator`) is embedded shallowly:

* Words are lists of characters (`Word`); Python string indexing `w[i]`
  becomes `charAt w i`.
* The Puzzle Model (`crossword.py`, the external collaborator of spec §2,
  modelled from spec §3) is a structure `Puzzle` giving the slot list, the
  per-slot length, the overlap relation and the vocabulary; the neighbor
  sets are derived from the overlap relation as the spec states.
* The mutable Domain Store `self.domains` becomes an explicit value of type
  `Domains := ℕ → List Word` threaded through every operation; Python's
  in-place `set.remove` loops become `removalPass`, and each method returns
  the updated store.
* The nondeterministic `set.pop` of `ac3` is realised as a deterministic
  worklist (pop from the front, newly generated arcs prepended), and
  `sorted(...)` as an insertion sort; both are refinements of the Python
  behaviour faithful to everything the claims mention.
* The recursion of `backtrack` is run with explicit fuel `p.vars.length + 1`,
  which is exactly the depth the Python recursion reaches (one frame per
  assigned slot plus the final completeness check).
-/

/-- Characters of a word; a Python string is embedded as its character list. -/
abbrev Word : Type := List Char

/-- Character of `w` at index `i` (Python `w[i]`; total, with a junk default
for out-of-range indices, which the solver never exercises on well-formed
puzzles). -/
def charAt (w : Word) (i : ℕ) : Char :=
  w.getD i '?'

/-- Modelled from the spec: the Puzzle Model (spec §2, §3), the external
collaborator `crossword.py` that is not part of the core source. It exposes
the finite slot set (as a list of slot identifiers), each slot's length, the
overlap relation and the vocabulary. -/
structure Puzzle where
  vars : List ℕ
  length : ℕ → ℕ
  overlaps : ℕ → ℕ → Option (ℕ × ℕ)
  words : List Word

/-- Modelled from the spec: well-formedness of the Puzzle Model (spec §3):
slots are distinct, the vocabulary is a set (no duplicates), the overlap
relation is defined only between distinct slots and is symmetric with
swapped indices. -/
structure Puzzle.WF (p : Puzzle) : Prop where
  nodupVars : p.vars.Nodup
  nodupWords : p.words.Nodup
  ovIrrefl : ∀ x, p.overlaps x x = none
  ovSymm : ∀ x y i j, p.overlaps x y = some (i, j) → p.overlaps y x = some (j, i)

/-- Modelled from the spec: `crossword.neighbors(v)`, the set of slots
overlapping `v` (spec §3), derived from the overlap relation. -/
def neighbors (p : Puzzle) (v : ℕ) : List ℕ :=
  p.vars.filter (fun u => u ≠ v && (p.overlaps v u).isSome)

/-- The Domain Store: per-slot list of candidate words (`self.domains`). -/
abbrev Domains : Type := ℕ → List Word

/-- Pointwise update of the Domain Store at one slot. -/
def updateD (d : Domains) (x : ℕ) (l : List Word) : Domains :=
  fun z => if z = x then l else d z

/-- Initial Domain Store: a full copy of the vocabulary for every slot
(`CrosswordCreator.__init__`). -/
def initDomains (p : Puzzle) : Domains :=
  fun _ => p.words

/-- One removal pass: iterate over a snapshot `todo` of a domain, erasing
from the live domain `cur` every word failing `keep`, tracking in `flag`
whether anything was removed. This is the Python pattern
`for w in s.copy(): if not keep(w): s.remove(w)` shared by
`enforce_node_consistency` and `revise`. -/
def removalPass (keep : Word → Bool) : List Word → List Word → Bool → List Word × Bool
  | [], cur, flag => (cur, flag)
  | w :: rest, cur, flag =>
    if keep w then removalPass keep rest cur flag
    else removalPass keep rest (cur.erase w) true

theorem removalPass_sublist (keep : Word → Bool) :
    ∀ todo cur flag, ((removalPass keep todo cur flag).1).Sublist cur := by
  intro todo
  induction todo with
  | nil => intro cur flag; exact List.Sublist.refl cur
  | cons w rest ih =>
    intro cur flag
    by_cases h : keep w
    · simpa [removalPass, h] using ih cur flag
    · simp only [removalPass, h, if_false]
      exact (ih (cur.erase w) true).trans (List.erase_sublist w cur)

theorem removalPass_flag (keep : Word → Bool) :
    ∀ todo cur flag,
      (removalPass keep todo cur flag).2 = (flag || todo.any (fun w => !(keep w))) := by
  intro todo
  induction todo with
  | nil => intro cur flag; simp [removalPass]
  | cons w rest ih =>
    intro cur flag
    by_cases h : keep w
    · simp [removalPass, h, ih]
    · simp [removalPass, h, ih]

theorem removalPass_false_id (keep : Word → Bool) :
    ∀ todo cur, (removalPass keep todo cur false).2 = false →
      (removalPass keep todo cur false).1 = cur := by
  intro todo
  induction todo with
  | nil => intro cur _; simp [removalPass]
  | cons w rest ih =>
    intro cur hf
    by_cases h : keep w
    · simp only [removalPass, h, if_true] at hf ⊢
      exact ih cur hf
    · exfalso
      simp only [removalPass] at hf
      rw [if_neg h, removalPass_flag] at hf
      simp at hf

theorem removalPass_true_lt (keep : Word → Bool) :
    ∀ todo cur, (∀ w ∈ todo, w ∈ cur) →
      (removalPass keep todo cur false).2 = true →
      ((removalPass keep todo cur false).1).length < cur.length := by
  intro todo
  induction todo with
  | nil => intro cur _ hf; simp [removalPass] at hf
  | cons w rest ih =>
    intro cur hsub hf
    by_cases h : keep w
    · simp only [removalPass, h, if_true] at hf ⊢
      exact ih cur (fun u hu => hsub u (List.mem_cons_of_mem w hu)) hf
    · simp only [removalPass, h, if_false]
      have hwcur : w ∈ cur := hsub w (List.mem_cons_self w rest)
      have h1 : ((removalPass keep rest (cur.erase w) true).1).Sublist (cur.erase w) :=
        removalPass_sublist keep rest (cur.erase w) true
      have h2 : (cur.erase w).length < cur.length := by
        rw [List.length_erase_of_mem hwcur]
        have : 0 < cur.length := List.length_pos.mpr (List.ne_nil_of_mem hwcur)
        omega
      exact Nat.lt_of_le_of_lt h1.length_le h2

theorem removalPass_filter (keep : Word → Bool) :
    ∀ todo cur flag, cur.Nodup →
      (removalPass keep todo cur flag).1 =
        cur.filter (fun w => !(todo.elem w) || keep w) := by
  intro todo
  induction todo with
  | nil =>
    intro cur flag _
    simp [removalPass]
  | cons w rest ih =>
    intro cur flag hnd
    by_cases h : keep w
    · simp only [removalPass, h, if_true]
      rw [ih cur flag hnd]
      apply List.filter_congr
      intro u _
      by_cases huw : u = w
      · subst huw; simp [h]
      · simp [List.elem_cons, huw]
    · simp only [removalPass]
      rw [if_neg h, ih (cur.erase w) true (hnd.erase w)]
      rw [hnd.erase_eq_filter w, List.filter_filter]
      apply List.filter_congr
      intro u _
      by_cases huw : u = w
      · subst huw; simp [h]
      · simp [List.elem_cons, huw]

theorem removalPass_nodup (keep : Word → Bool) (todo cur : List Word) (flag : Bool)
    (hnd : cur.Nodup) : ((removalPass keep todo cur flag).1).Nodup :=
  (removalPass_sublist keep todo cur flag).nodup hnd

theorem removalPass_mem_of_kept (keep : Word → Bool) :
    ∀ todo cur flag w, w ∈ cur → keep w = true →
      w ∈ (removalPass keep todo cur flag).1 := by
  intro todo
  induction todo with
  | nil => intro cur flag w hw _; simpa [removalPass] using hw
  | cons u rest ih =>
    intro cur flag w hw hkw
    by_cases h : keep u
    · simp only [removalPass, h, if_true]
      exact ih cur flag w hw hkw
    · simp only [removalPass, h, if_false]
      apply ih (cur.erase u) true w _ hkw
      apply List.mem_erase_of_ne _ |>.mpr hw
      intro hwu
      rw [hwu] at hkw
      simp [h] at hkw

/-- Support test: some word of `dy` matches `wx` at the overlap indices
(the inner `for word_y in self.domains[y]` loop of `revise`, with break). -/
def hasSupport (ov : ℕ × ℕ) (dy : List Word) (wx : Word) : Bool :=
  dy.any (fun wy => charAt wx ov.1 == charAt wy ov.2)

/-- Embedding of `CrosswordCreator.enforce_node_consistency`: for every slot,
remove every word whose length differs from the slot's length. -/
def enforce_node_consistency (p : Puzzle) (d : Domains) : Domains :=
  fun v =>
    if v ∈ p.vars then
      (removalPass (fun w => w.length == p.length v) (d v) (d v) false).1
    else d v

/-- Embedding of `CrosswordCreator.revise`: if `overlaps[x, y]` is `None`
return the store unchanged with flag `False`; otherwise iterate over a copy
of `domains[x]`, removing words with no support in `domains[y]`, and report
whether anything was removed. -/
def revise (p : Puzzle) (d : Domains) (x y : ℕ) : Domains × Bool :=
  match p.overlaps x y with
  | none => (d, false)
  | some ov =>
    let r := removalPass (hasSupport ov (d y)) (d x) (d x) false
    (updateD d x r.1, r.2)

theorem revise_frame (p : Puzzle) (d : Domains) (x y z : ℕ) (hz : z ≠ x) :
    (revise p d x y).1 z = d z := by
  unfold revise
  match hov : p.overlaps x y with
  | none => rfl
  | some ov => simp [updateD, hz]

theorem revise_subset (p : Puzzle) (d : Domains) (x y z : ℕ) :
    ((revise p d x y).1 z).Sublist (d z) := by
  unfold revise
  match hov : p.overlaps x y with
  | none => exact List.Sublist.refl _
  | some ov =>
    simp only [updateD]
    by_cases hzx : z = x
    · subst hzx
      simp only [if_pos rfl]
      exact removalPass_sublist _ _ _ _
    · simp only [if_neg hzx]
      exact List.Sublist.refl _

theorem revise_flag_lt (p : Puzzle) (d : Domains) (x y : ℕ)
    (hf : (revise p d x y).2 = true) :
    ((revise p d x y).1 x).length < (d x).length := by
  cases hov : p.overlaps x y with
  | none => unfold revise at hf; rw [hov] at hf; simp at hf
  | some ov =>
    unfold revise at hf ⊢
    rw [hov] at hf ⊢
    simp only [updateD, if_pos rfl]
    exact removalPass_true_lt _ _ _ (fun w hw => hw) hf

theorem revise_false_eq (p : Puzzle) (d : Domains) (x y : ℕ)
    (hf : (revise p d x y).2 = false) :
    (revise p d x y).1 = d := by
  cases hov : p.overlaps x y with
  | none => unfold revise; rw [hov]
  | some ov =>
    unfold revise at hf ⊢
    rw [hov] at hf ⊢
    simp only
    funext z
    simp only [updateD]
    by_cases hzx : z = x
    · subst hzx
      rw [if_pos rfl]
      exact removalPass_false_id _ _ _ hf
    · rw [if_neg hzx]

theorem revise_fst_filter (p : Puzzle) (d : Domains) (x y : ℕ) (ov : ℕ × ℕ)
    (hov : p.overlaps x y = some ov) (hnd : (d x).Nodup) :
    (revise p d x y).1 x = (d x).filter (hasSupport ov (d y)) := by
  unfold revise
  rw [hov]
  simp only [updateD, if_pos rfl]
  rw [removalPass_filter _ _ _ _ hnd]
  apply List.filter_congr
  intro w hw
  simp [List.elem_eq_mem, hw]

theorem revise_flag_any (p : Puzzle) (d : Domains) (x y : ℕ) (ov : ℕ × ℕ)
    (hov : p.overlaps x y = some ov) :
    (revise p d x y).2 = (d x).any (fun w => !(hasSupport ov (d y) w)) := by
  unfold revise
  rw [hov]
  simp only
  rw [removalPass_flag]
  simp

theorem revise_none (p : Puzzle) (d : Domains) (x y : ℕ)
    (hov : p.overlaps x y = none) : revise p d x y = (d, false) := by
  unfold revise
  rw [hov]

/-- A word of `domains[x]` that has support in `domains[y]` survives `revise`
(no well-formedness of the store needed). -/
theorem revise_mem_of_support (p : Puzzle) (d : Domains) (x y : ℕ) (w : Word)
    (hw : w ∈ d x)
    (hsup : ∀ ov, p.overlaps x y = some ov → hasSupport ov (d y) w = true) :
    w ∈ (revise p d x y).1 x := by
  unfold revise
  match hov : p.overlaps x y with
  | none => exact hw
  | some ov =>
    simp only [updateD, if_pos rfl]
    exact removalPass_mem_of_kept _ _ _ _ _ hw (hsup ov hov)

theorem revise_nodup (p : Puzzle) (d : Domains) (x y z : ℕ)
    (hnd : (d z).Nodup) : ((revise p d x y).1 z).Nodup :=
  (revise_subset p d x y z).nodup hnd

/-- Total number of candidate words over the puzzle's slots; the termination
measure of the AC-3 worklist loop. -/
def totalDomSize (p : Puzzle) (d : Domains) : ℕ :=
  (p.vars.map (fun v => (d v).length)).sum

theorem sum_len_lt (d d' : Domains) (x : ℕ)
    (hlt : (d' x).length < (d x).length)
    (hfr : ∀ z, z ≠ x → d' z = d z) :
    ∀ l : List ℕ, x ∈ l →
      (l.map (fun v => (d' v).length)).sum < (l.map (fun v => (d v).length)).sum := by
  intro l hx
  induction l with
  | nil => simp at hx
  | cons a rest ih =>
    rcases List.mem_cons.mp hx with rfl | hxr
    · simp only [List.map_cons, List.sum_cons]
      have hle : ((rest.map (fun v => (d' v).length)).sum) ≤
          ((rest.map (fun v => (d v).length)).sum) := by
        apply List.sum_le_sum
        intro v _
        by_cases hv : v = x
        · subst hv; omega
        · rw [hfr v hv]
      omega
    · simp only [List.map_cons, List.sum_cons]
      have hle : (d' a).length ≤ (d a).length := by
        by_cases hv : a = x
        · subst hv; omega
        · rw [hfr a hv]
      have := ih hxr
      omega

theorem totalDomSize_lt (p : Puzzle) (d d' : Domains) (x : ℕ) (hx : x ∈ p.vars)
    (hlt : (d' x).length < (d x).length)
    (hfr : ∀ z, z ≠ x → d' z = d z) :
    totalDomSize p d' < totalDomSize p d :=
  sum_len_lt d d' x hlt hfr p.vars hx

/-- Embedding of `CrosswordCreator.ac3`'s worklist loop: pop an arc, revise,
fail if the revised domain emptied, otherwise re-enqueue every arc `(z, x)`
with `z ≠ x` (as line 151 of the source does, not restricted to neighbors).
Arcs violating the Puzzle Model's contract (an endpoint that is no slot, or
a self-pair), which would raise a `KeyError` in Python, exit with a junk
result. -/
def ac3Aux (p : Puzzle) (d : Domains) (arcs : List (ℕ × ℕ)) : Domains × Bool :=
  match arcs with
  | [] => (d, true)
  | (x, y) :: rest =>
    if hg : x ∈ p.vars ∧ y ∈ p.vars ∧ x ≠ y then
      if hf : (revise p d x y).2 = true then
        if ((revise p d x y).1 x).length = 0 then ((revise p d x y).1, false)
        else ac3Aux p (revise p d x y).1
          ((p.vars.filter (fun z => z ≠ x)).map (fun z => (z, x)) ++ rest)
      else ac3Aux p (revise p d x y).1 rest
    else (d, false)
termination_by (totalDomSize p d, arcs.length)
decreasing_by
  · apply Prod.Lex.left
    exact totalDomSize_lt p d _ x hg.1 (revise_flag_lt p d x y hf)
      (fun z hz => revise_frame p d x y z hz)
  · rw [revise_false_eq p d x y (Bool.not_eq_true _ |>.mp hf)]
    apply Prod.Lex.right
    simp

/-- Default arc set of `ac3`: all ordered pairs of distinct slots. -/
def defaultArcs (p : Puzzle) : List (ℕ × ℕ) :=
  (p.vars.map (fun x => (p.vars.filter (fun y => y ≠ x)).map (fun y => (x, y)))).flatten

/-- The effective initial arc list of a call `ac3(arcs)`. -/
def arcsOf (p : Puzzle) (arcs : Option (List (ℕ × ℕ))) : List (ℕ × ℕ) :=
  match arcs with
  | none => defaultArcs p
  | some l => l

/-- Embedding of `CrosswordCreator.ac3` (`arcs=None` selects the default
arc set). Returns the updated Domain Store and the Python return value. -/
def ac3 (p : Puzzle) (d : Domains) (arcs : Option (List (ℕ × ℕ))) : Domains × Bool :=
  ac3Aux p d (arcsOf p arcs)

/-- An arc list respects the Puzzle Model's contract: both endpoints are
slots and they are distinct. -/
def arcsWF (p : Puzzle) (l : List (ℕ × ℕ)) : Prop :=
  ∀ pr ∈ l, pr.1 ∈ p.vars ∧ pr.2 ∈ p.vars ∧ pr.1 ≠ pr.2

instance (p : Puzzle) (l : List (ℕ × ℕ)) : Decidable (arcsWF p l) := by
  unfold arcsWF
  infer_instance

theorem defaultArcs_wf (p : Puzzle) : arcsWF p (defaultArcs p) := by
  intro pr hpr
  unfold defaultArcs at hpr
  rw [List.mem_flatten] at hpr
  obtain ⟨l, hl, hprl⟩ := hpr
  rw [List.mem_map] at hl
  obtain ⟨x, hx, rfl⟩ := hl
  rw [List.mem_map] at hprl
  obtain ⟨y, hy, rfl⟩ := hprl
  rw [List.mem_filter] at hy
  refine ⟨hx, hy.1, ?_⟩
  have := hy.2
  simp at this
  exact fun h => this h.symm

theorem mem_defaultArcs (p : Puzzle) (x y : ℕ) (hx : x ∈ p.vars) (hy : y ∈ p.vars)
    (hxy : y ≠ x) : (x, y) ∈ defaultArcs p := by
  unfold defaultArcs
  rw [List.mem_flatten]
  refine ⟨(p.vars.filter (fun y => y ≠ x)).map (fun y => (x, y)), ?_, ?_⟩
  · exact List.mem_map.mpr ⟨x, hx, rfl⟩
  · exact List.mem_map.mpr ⟨y, List.mem_filter.mpr ⟨hy, by simp [hxy]⟩, rfl⟩

/-- Any domain-store property preserved by (contract-respecting) single
`revise` steps is preserved by the whole AC-3 loop. -/
theorem ac3Aux_preserves (p : Puzzle) (M : Domains → Prop)
    (hM : ∀ d x y, x ∈ p.vars → y ∈ p.vars → x ≠ y → M d → M ((revise p d x y).1)) :
    ∀ d arcs, M d → M ((ac3Aux p d arcs).1) := by
  intro d arcs
  induction d, arcs using ac3Aux.induct p with
  | case1 d => intro h; simpa [ac3Aux] using h
  | case2 d x y rest hg hf he =>
    intro h
    rw [ac3Aux]
    simp only [dif_pos hg, dif_pos hf, if_pos he]
    exact hM d x y hg.1 hg.2.1 hg.2.2 h
  | case3 d x y rest hg hf he ih =>
    intro h
    rw [ac3Aux]
    simp only [dif_pos hg, dif_pos hf, if_neg he]
    exact ih (hM d x y hg.1 hg.2.1 hg.2.2 h)
  | case4 d x y rest hg hf ih =>
    intro h
    rw [ac3Aux]
    simp only [dif_pos hg, dif_neg hf]
    exact ih (hM d x y hg.1 hg.2.1 hg.2.2 h)
  | case5 d x y rest hg =>
    intro h
    rw [ac3Aux]
    simp only [dif_neg hg]
    exact h

theorem ac3Aux_sublist (p : Puzzle) (d : Domains) (arcs : List (ℕ × ℕ)) :
    ∀ v, ((ac3Aux p d arcs).1 v).Sublist (d v) := by
  have h := ac3Aux_preserves p (fun dd => ∀ v, (dd v).Sublist (d v))
    (fun dd x y _ _ _ hdd v => (revise_subset p dd x y v).trans (hdd v))
    d arcs (fun v => List.Sublist.refl (d v))
  exact h

theorem ac3Aux_nodup (p : Puzzle) (d : Domains) (arcs : List (ℕ × ℕ))
    (hnd : ∀ v, (d v).Nodup) : ∀ v, ((ac3Aux p d arcs).1 v).Nodup :=
  fun v => (ac3Aux_sublist p d arcs v).nodup (hnd v)

theorem arcsWF_requeue (p : Puzzle) (x : ℕ) (hx : x ∈ p.vars)
    (rest : List (ℕ × ℕ)) (hrest : arcsWF p rest) :
    arcsWF p ((p.vars.filter (fun z => z ≠ x)).map (fun z => (z, x)) ++ rest) := by
  intro pr hpr
  rcases List.mem_append.mp hpr with hl | hr
  · rw [List.mem_map] at hl
    obtain ⟨z, hz, rfl⟩ := hl
    rw [List.mem_filter] at hz
    have hzx : z ≠ x := by simpa using hz.2
    exact ⟨hz.1, hx, hzx⟩
  · exact hrest pr hr

theorem ac3Aux_false_empty (p : Puzzle) :
    ∀ d arcs, arcsWF p arcs → (ac3Aux p d arcs).2 = false →
      ∃ v ∈ p.vars, (ac3Aux p d arcs).1 v = [] := by
  intro d arcs
  induction d, arcs using ac3Aux.induct p with
  | case1 d =>
    intro _ hf
    rw [ac3Aux] at hf
    simp at hf
  | case2 d x y rest hg hf he =>
    intro _ _
    rw [ac3Aux]
    simp only [dif_pos hg, dif_pos hf, if_pos he]
    exact ⟨x, hg.1, List.length_eq_zero.mp he⟩
  | case3 d x y rest hg hf he ih =>
    intro harcs hfl
    rw [ac3Aux] at hfl ⊢
    simp only [dif_pos hg, dif_pos hf, if_neg he] at hfl ⊢
    exact ih (arcsWF_requeue p x hg.1 rest (fun pr hpr => harcs pr (List.mem_cons_of_mem _ hpr))) hfl
  | case4 d x y rest hg hf ih =>
    intro harcs hfl
    rw [ac3Aux] at hfl ⊢
    simp only [dif_pos hg, dif_neg hf] at hfl ⊢
    exact ih (fun pr hpr => harcs pr (List.mem_cons_of_mem _ hpr)) hfl
  | case5 d x y rest hg =>
    intro harcs _
    exact absurd (harcs (x, y) (List.mem_cons_self _ _)) hg

/-- Arc consistency of the directed pair `(x, y)` in a Domain Store: every
word of `domain(x)` has a supporting word in `domain(y)` at the overlap
indices (vacuous when the overlap is undefined). -/
def arcOK (p : Puzzle) (d : Domains) (x y : ℕ) : Prop :=
  ∀ ov, p.overlaps x y = some ov → ∀ w ∈ d x, hasSupport ov (d y) w = true

/-- Arc consistency of every ordered pair of distinct slots. -/
def allArcsOK (p : Puzzle) (d : Domains) : Prop :=
  ∀ x ∈ p.vars, ∀ y ∈ p.vars, x ≠ y → arcOK p d x y

theorem revise_arcOK (p : Puzzle) (d : Domains) (x y : ℕ) (hxy : x ≠ y)
    (hnd : (d x).Nodup) : arcOK p (revise p d x y).1 x y := by
  intro ov hov w hw
  rw [revise_fst_filter p d x y ov hov hnd] at hw
  rw [revise_frame p d x y y (fun h => hxy h.symm)]
  exact List.of_mem_filter hw

theorem arcOK_mono (p : Puzzle) (d d' : Domains) (a b : ℕ) (h : arcOK p d a b)
    (hsub : ∀ w ∈ d' a, w ∈ d a) (hb : d' b = d b) : arcOK p d' a b := by
  intro ov hov w hw
  rw [hb]
  exact h ov hov w (hsub w hw)

theorem revise_flag_false_arcOK (p : Puzzle) (d : Domains) (x y : ℕ)
    (hf : (revise p d x y).2 = false) : arcOK p d x y := by
  intro ov hov w hw
  have hany := revise_flag_any p d x y ov hov
  rw [hf] at hany
  have := List.any_eq_false.mp hany.symm w hw
  simpa using this

/-- Queue invariant of AC-3: if every ordered pair of distinct slots is
either already consistent or still enqueued, a `True`-returning run leaves
every such pair consistent. -/
theorem ac3Aux_fixpoint (p : Puzzle) :
    ∀ d arcs, (∀ v, (d v).Nodup) →
      (∀ x ∈ p.vars, ∀ y ∈ p.vars, x ≠ y → arcOK p d x y ∨ (x, y) ∈ arcs) →
      (ac3Aux p d arcs).2 = true →
      allArcsOK p (ac3Aux p d arcs).1 := by
  intro d arcs
  induction d, arcs using ac3Aux.induct p with
  | case1 d =>
    intro _ hinv _
    rw [ac3Aux]
    intro a ha b hb hab
    rcases hinv a ha b hb hab with h | h
    · exact h
    · simp at h
  | case2 d x y rest hg hf he =>
    intro _ _ htrue
    rw [ac3Aux] at htrue
    simp only [dif_pos hg, dif_pos hf, if_pos he] at htrue
    simp at htrue
  | case3 d x y rest hg hf he ih =>
    intro hnd hinv htrue
    rw [ac3Aux] at htrue ⊢
    simp only [dif_pos hg, dif_pos hf, if_neg he] at htrue ⊢
    apply ih (fun v => revise_nodup p d x y v (hnd v)) _ htrue
    intro a ha b hb hab
    by_cases hbx : b = x
    · subst hbx
      right
      apply List.mem_append.mpr
      left
      exact List.mem_map.mpr ⟨a, List.mem_filter.mpr ⟨ha, by simp [hab]⟩, rfl⟩
    · rcases hinv a ha b hb hab with h | h
      · left
        exact arcOK_mono p d _ a b h
          (fun w hw => (revise_subset p d x y a).mem hw)
          (revise_frame p d x y b hbx)
      · rcases List.mem_cons.mp h with heq | hmem
        · left
          have hax : a = x := congrArg Prod.fst heq
          have hby : b = y := congrArg Prod.snd heq
          subst hax; subst hby
          exact revise_arcOK p d a b hab (hnd a)
        · right
          exact List.mem_append.mpr (Or.inr hmem)
  | case4 d x y rest hg hf ih =>
    intro hnd hinv htrue
    rw [ac3Aux] at htrue ⊢
    simp only [dif_pos hg, dif_neg hf] at htrue ⊢
    have hfl : (revise p d x y).2 = false := Bool.not_eq_true _ |>.mp hf
    have hdd : (revise p d x y).1 = d := revise_false_eq p d x y hfl
    apply ih _ _ htrue
    · rw [hdd]; exact hnd
    · rw [hdd]
      intro a ha b hb hab
      rcases hinv a ha b hb hab with h | h
      · exact Or.inl h
      · rcases List.mem_cons.mp h with heq | hmem
        · left
          have hax : a = x := congrArg Prod.fst heq
          have hby : b = y := congrArg Prod.snd heq
          subst hax; subst hby
          exact revise_flag_false_arcOK p d a b hfl
        · exact Or.inr hmem
  | case5 d x y rest hg =>
    intro _ _ htrue
    rw [ac3Aux] at htrue
    simp only [dif_neg hg] at htrue
    simp at htrue

/-- From an arc-consistent store, AC-3 removes nothing and returns `True`,
whatever (contract-respecting) arcs it is given. -/
theorem ac3Aux_allOK_id (p : Puzzle) :
    ∀ arcs d, arcsWF p arcs → allArcsOK p d → ac3Aux p d arcs = (d, true) := by
  intro arcs
  induction arcs with
  | nil => intro d _ _; rw [ac3Aux]
  | cons pr rest ih =>
    intro d harcs hok
    obtain ⟨x, y⟩ := pr
    have hg : x ∈ p.vars ∧ y ∈ p.vars ∧ x ≠ y := harcs (x, y) (List.mem_cons_self _ _)
    have hfl : (revise p d x y).2 = false := by
      cases hov : p.overlaps x y with
      | none => rw [revise_none p d x y hov]
      | some ov =>
        rw [revise_flag_any p d x y ov hov]
        apply List.any_eq_false.mpr
        intro w hw
        have := hok x hg.1 y hg.2.1 hg.2.2 ov hov w hw
        simp [this]
    rw [ac3Aux]
    simp only [dif_pos hg, dif_neg (by simp [hfl] : ¬(revise p d x y).2 = true)]
    rw [revise_false_eq p d x y hfl]
    exact ih d (fun pr hpr => harcs pr (List.mem_cons_of_mem _ hpr)) hok

/-- An assignment: the Python dict mapping slots to words, as an association
list (keys unique in every state the solver constructs). -/
abbrev Assignment : Type := List (ℕ × Word)

/-- Dict lookup. -/
def lookupA (a : Assignment) (v : ℕ) : Option Word :=
  a.lookup v

/-- Dict key list. -/
def keysA (a : Assignment) : List ℕ :=
  a.map Prod.fst

/-- Dict store `a[v] = w`: overwrite if present, append otherwise. -/
def insertA (a : Assignment) (v : ℕ) (w : Word) : Assignment :=
  if (lookupA a v).isSome then a.map (fun pr => if pr.1 = v then (v, w) else pr)
  else a ++ [(v, w)]

/-- Embedding of `CrosswordCreator.assignment_complete`: the source compares
only the number of entries with the number of slots (line 160). -/
def assignment_complete (p : Puzzle) (a : Assignment) : Bool :=
  a.length == p.vars.length

/-- First check of `consistent`: the set of assigned words is as large as the
assignment (Python `len({value ...}) == len(assignment)`). -/
def distinctValuesB (a : Assignment) : Bool :=
  (a.map Prod.snd).dedup.length == a.length

/-- Second check of `consistent`: every assigned word has its slot's length. -/
def lengthFitB (p : Puzzle) (a : Assignment) : Bool :=
  a.all (fun pr => pr.2.length == p.length pr.1)

/-- Third check of `consistent`: over all unordered pairs of assigned slots
(Python `combinations(assignment.keys(), 2)`), if the overlap is defined the
two words agree at the shared indices. -/
def pairsAgreeB (p : Puzzle) : Assignment → Bool
  | [] => true
  | (x, wx) :: rest =>
    (rest.all (fun pr =>
      match p.overlaps x pr.1 with
      | none => true
      | some ov => charAt wx ov.1 == charAt pr.2 ov.2)) && pairsAgreeB p rest

/-- Embedding of `CrosswordCreator.consistent`. -/
def consistent (p : Puzzle) (a : Assignment) : Bool :=
  distinctValuesB a && lengthFitB p a && pairsAgreeB p a

/-- Number of neighbor candidates a word would rule out
(`rule_out[word_var]` in `order_domain_values`). -/
def ruleOut (p : Puzzle) (d : Domains) (var : ℕ) (a : Assignment) (w : Word) : ℕ :=
  (((neighbors p var).filter (fun n => !(lookupA a n).isSome)).map (fun n =>
    match p.overlaps var n with
    | none => 0
    | some ov => ((d n).filter (fun wn => !(charAt w ov.1 == charAt wn ov.2))).length)).sum

/-- Stable insertion into a list sorted by `key` ascending. -/
def insertSorted (key : Word → ℕ) (w : Word) : List Word → List Word
  | [] => [w]
  | x :: xs => if key w ≤ key x then w :: x :: xs else x :: insertSorted key w xs

/-- Stable sort by `key` ascending (the Python `sorted(...)`). -/
def sortByKey (key : Word → ℕ) (l : List Word) : List Word :=
  l.foldr (insertSorted key) []

/-- Embedding of `CrosswordCreator.order_domain_values`: the candidate words
of `var`, sorted ascending by how many neighbor candidates they rule out. -/
def order_domain_values (p : Puzzle) (d : Domains) (var : ℕ) (a : Assignment) :
    List Word :=
  sortByKey (ruleOut p d var a) (d var)

/-- Sort key of `select_unassigned_variable`: remaining domain size, then
neighbor count — both ascending in the source (line 209). -/
def selectKey (p : Puzzle) (d : Domains) (x : ℕ) : ℕ × ℕ :=
  ((d x).length, (neighbors p x).length)

/-- Strict lexicographic order on the selection key. -/
def keyLt (k1 k2 : ℕ × ℕ) : Prop :=
  k1.1 < k2.1 ∨ (k1.1 = k2.1 ∧ k1.2 < k2.2)

instance (k1 k2 : ℕ × ℕ) : Decidable (keyLt k1 k2) := by
  unfold keyLt; infer_instance

/-- Embedding of `CrosswordCreator.select_unassigned_variable`: among the
slots not in the assignment, the first one minimal for `selectKey` (i.e.
`sorted(unassigned, key=...)[0]`); `none` when every slot is assigned
(where Python would raise `IndexError`). -/
def select_unassigned_variable (p : Puzzle) (d : Domains) (a : Assignment) :
    Option ℕ :=
  match p.vars.filter (fun v => !(lookupA a v).isSome) with
  | [] => none
  | v :: rest => some (rest.foldl (fun best x =>
      if keyLt (selectKey p d x) (selectKey p d best) then x else best) v)

/-- Arc set used by `backtrack`'s propagation step: all ordered pairs of
distinct slots not in the extended assignment (source line 228). -/
def backArcs (p : Puzzle) (a : Assignment) : List (ℕ × ℕ) :=
  ((p.vars.filter (fun x => !(lookupA a x).isSome)).map (fun x =>
    (p.vars.filter (fun y => y ≠ x && !(lookupA a y).isSome)).map (fun y => (x, y)))).flatten

mutual

/-- Embedding of `CrosswordCreator.backtrack`, with explicit fuel for the
recursion depth (`solve` supplies `p.vars.length + 1`, which the search
never exhausts: each level assigns one more slot). -/
def backtrack (p : Puzzle) : ℕ → Domains → Assignment → Domains × Option Assignment
  | 0, d, _ => (d, none)
  | fuel + 1, d, a =>
    if assignment_complete p a then (d, some a)
    else
      match select_unassigned_variable p d a with
      | none => (d, none)
      | some var => btLoop p fuel d a var (order_domain_values p d var a)
termination_by fuel _ _ => (fuel, 0)

/-- The `for word in self.order_domain_values(...)` loop of `backtrack`:
try each candidate in turn, threading the (mutated) Domain Store through
failed branches. -/
def btLoop (p : Puzzle) : ℕ → Domains → Assignment → ℕ → List Word → Domains × Option Assignment
  | _, d, _, _, [] => (d, none)
  | fuel, d, a, var, w :: rest =>
    if consistent p (insertA a var w) then
      match backtrack p fuel ((ac3 p d (some (backArcs p (insertA a var w)))).1) (insertA a var w) with
      | (d2, some res) => (d2, some res)
      | (d2, none) => btLoop p fuel d2 a var rest
    else btLoop p fuel d a var rest
termination_by fuel _ _ _ ws => (fuel, ws.length + 1)

end

/-- Embedding of `CrosswordCreator.solve`: node consistency, full AC-3
(return value discarded, as in the source), then backtracking search from
the empty assignment. -/
def solve (p : Puzzle) : Option Assignment :=
  (backtrack p (p.vars.length + 1)
    ((ac3 p (enforce_node_consistency p (initDomains p)) none).1) []).2

theorem hasSupport_iff (ov : ℕ × ℕ) (dy : List Word) (w : Word) :
    hasSupport ov dy w = true ↔ ∃ wy ∈ dy, charAt w ov.1 = charAt wy ov.2 := by
  unfold hasSupport
  rw [List.any_eq_true]
  constructor
  · rintro ⟨wy, hwy, heq⟩
    exact ⟨wy, hwy, by simpa using heq⟩
  · rintro ⟨wy, hwy, heq⟩
    exact ⟨wy, hwy, by simpa using heq⟩

/-- Claim C4: for distinct slots `x ≠ y`, `revise(x, y)` is a no-op returning
`False` when the overlap is undefined; otherwise it keeps exactly the words
of `domain(x)` having a compatible word in `domain(y)` at the overlap
indices, and returns `True` iff at least one word was actually removed. -/
theorem claim_C4_revise (p : Puzzle) (d : Domains) (x y : ℕ) (hxy : x ≠ y)
    (hnd : (d x).Nodup) :
    (p.overlaps x y = none → (revise p d x y).1 = d ∧ (revise p d x y).2 = false) ∧
    (∀ ov, p.overlaps x y = some ov →
      (∀ w, w ∈ (revise p d x y).1 x ↔
        w ∈ d x ∧ ∃ wy ∈ d y, charAt w ov.1 = charAt wy ov.2) ∧
      ((revise p d x y).2 = true ↔ ∃ w ∈ d x, w ∉ (revise p d x y).1 x)) := by
  constructor
  · intro hov
    rw [revise_none p d x y hov]
    exact ⟨rfl, rfl⟩
  · intro ov hov
    have hfst := revise_fst_filter p d x y ov hov hnd
    have hmem : ∀ w, w ∈ (revise p d x y).1 x ↔
        w ∈ d x ∧ ∃ wy ∈ d y, charAt w ov.1 = charAt wy ov.2 := by
      intro w
      rw [hfst, List.mem_filter, hasSupport_iff]
    refine ⟨hmem, ?_⟩
    rw [revise_flag_any p d x y ov hov, List.any_eq_true]
    constructor
    · rintro ⟨w, hw, hns⟩
      refine ⟨w, hw, fun hmem2 => ?_⟩
      have := ((hmem w).mp hmem2).2
      rw [← hasSupport_iff] at this
      simp [this] at hns
    · rintro ⟨w, hw, hnm⟩
      refine ⟨w, hw, ?_⟩
      by_cases hs : hasSupport ov (d y) w = true
      · exact absurd ((hmem w).mpr ⟨hw, (hasSupport_iff ov (d y) w).mp hs⟩) hnm
      · simp [hs]

/-- Claim C10: `revise(x, y)` modifies at most `domain(x)`: every other
slot's domain is untouched. (The overlap relation and the neighbor sets
live in the immutable `Puzzle` value, which `revise` does not return, so
their preservation is structural in this embedding.) -/
theorem claim_C10_revise_frame (p : Puzzle) (d : Domains) (x y : ℕ)
    (hxy : x ≠ y) :
    ∀ z, z ≠ x → (revise p d x y).1 z = d z :=
  fun z hz => revise_frame p d x y z hz

/-- Claim C5: after any (contract-respecting) call to `ac3`, every domain is
a subset of its former value; a `False` return means some slot's domain is
empty afterwards; and when no domain ends empty the call returns `True`. -/
theorem claim_C5_ac3 (p : Puzzle) (d : Domains) (ao : Option (List (ℕ × ℕ)))
    (harcs : arcsWF p (arcsOf p ao)) :
    (∀ v w, w ∈ (ac3 p d ao).1 v → w ∈ d v) ∧
    ((ac3 p d ao).2 = false → ∃ v ∈ p.vars, (ac3 p d ao).1 v = []) ∧
    ((∀ v ∈ p.vars, (ac3 p d ao).1 v ≠ []) → (ac3 p d ao).2 = true) := by
  refine ⟨fun v w hw => (ac3Aux_sublist p d (arcsOf p ao) v).mem hw,
    fun hf => ac3Aux_false_empty p d (arcsOf p ao) harcs hf, fun hne => ?_⟩
  cases hb : (ac3 p d ao).2 with
  | true => rfl
  | false =>
    obtain ⟨v, hv, hemp⟩ := ac3Aux_false_empty p d (arcsOf p ao) harcs hb
    exact absurd hemp (hne v hv)

/-- Claim C6: if a default-arcs run of AC-3 returns `True`, a second
default-arcs run from the resulting store changes nothing and returns
`True` again. -/
theorem claim_C6_ac3_idempotent (p : Puzzle) (d : Domains)
    (hnd : ∀ v, (d v).Nodup)
    (htrue : (ac3 p d none).2 = true) :
    (∀ v, (ac3 p (ac3 p d none).1 none).1 v = (ac3 p d none).1 v) ∧
    (ac3 p (ac3 p d none).1 none).2 = true := by
  have hfix : allArcsOK p (ac3 p d none).1 := by
    apply ac3Aux_fixpoint p d (defaultArcs p) hnd _ htrue
    intro x hx y hy hxy
    right
    exact mem_defaultArcs p x y hx hy (fun h => hxy h.symm)
  have hid : ac3 p (ac3 p d none).1 none = ((ac3 p d none).1, true) :=
    ac3Aux_allOK_id p (defaultArcs p) (ac3 p d none).1 (defaultArcs_wf p) hfix
  rw [hid]
  exact ⟨fun v => rfl, rfl⟩

/-- Concrete two-slot crossing puzzle for exercising `revise`. -/
def pW4 : Puzzle where
  vars := [0, 1]
  length := fun _ => 1
  overlaps := fun x y =>
    match x, y with
    | 0, 1 => some (0, 0)
    | 1, 0 => some (0, 0)
    | _, _ => none
  words := [['a'], ['b']]

def dW4 : Domains :=
  fun v => if v = 0 then [['a'], ['b']] else [['a']]

theorem claim_C4_witness :
    ((0 : ℕ) ≠ 1 ∧ (dW4 0).Nodup) ∧ (revise pW4 dW4 0 1).2 = true := by
  have h := (claim_C4_revise pW4 dW4 0 1 (by decide) (by decide)).2 (0, 0) rfl
  refine ⟨⟨by decide, by decide⟩, ?_⟩
  apply h.2.mpr
  refine ⟨['b'], by decide, fun hmem => ?_⟩
  obtain ⟨-, wy, hwy, heq⟩ := (h.1 ['b']).mp hmem
  have hwy' : wy = ['a'] := by
    have : dW4 1 = [['a']] := by decide
    rw [this] at hwy
    simpa using hwy
  rw [hwy'] at heq
  simp [charAt] at heq

def pW10 : Puzzle where
  vars := [0, 1]
  length := fun _ => 1
  overlaps := fun x y =>
    match x, y with
    | 0, 1 => some (0, 0)
    | 1, 0 => some (0, 0)
    | _, _ => none
  words := [['a'], ['b']]

def dW10 : Domains :=
  fun v => if v = 0 then [['a'], ['b']] else [['a']]

theorem claim_C10_witness :
    ((0 : ℕ) ≠ 1 ∧ (2 : ℕ) ≠ 0) ∧ (revise pW10 dW10 0 1).1 2 = dW10 2 :=
  ⟨⟨by decide, by decide⟩, claim_C10_revise_frame pW10 dW10 0 1 (by decide) 2 (by decide)⟩

/-- Concrete overlap-free puzzle for exercising `ac3`. -/
def pW5 : Puzzle where
  vars := [0, 1]
  length := fun _ => 1
  overlaps := fun _ _ => none
  words := [['a']]

def dW5 : Domains :=
  fun _ => [['a']]

theorem claim_C5_witness :
    arcsWF pW5 (arcsOf pW5 none) ∧ (ac3 pW5 dW5 none).2 = true := by
  have hall : allArcsOK pW5 dW5 := fun x _ y _ _ ov hov => nomatch hov
  have hid : ac3 pW5 dW5 none = (dW5, true) :=
    ac3Aux_allOK_id pW5 (arcsOf pW5 none) dW5 (by decide) hall
  refine ⟨by decide, ?_⟩
  apply (claim_C5_ac3 pW5 dW5 none (by decide)).2.2
  intro v hv
  rw [hid]
  simp [dW5]

def pW6 : Puzzle where
  vars := [0, 1]
  length := fun _ => 1
  overlaps := fun _ _ => none
  words := [['a']]

def dW6 : Domains :=
  fun _ => [['a']]

theorem claim_C6_witness :
    ((∀ v, (dW6 v).Nodup) ∧ (ac3 pW6 dW6 none).2 = true) ∧
    (ac3 pW6 (ac3 pW6 dW6 none).1 none).2 = true := by
  have hall : allArcsOK pW6 dW6 := fun x _ y _ _ ov hov => nomatch hov
  have hid : ac3 pW6 dW6 none = (dW6, true) :=
    ac3Aux_allOK_id pW6 (arcsOf pW6 none) dW6 (by decide) hall
  have hnd : ∀ v, (dW6 v).Nodup := fun _ => List.nodup_singleton (['a'] : Word)
  have htrue : (ac3 pW6 dW6 none).2 = true := by rw [hid]
  exact ⟨⟨hnd, htrue⟩, (claim_C6_ac3_idempotent pW6 dW6 hnd htrue).2⟩

/-- Concrete puzzle for the variable-selection heuristic: slots 0 and 1 are
unassigned with equal domain sizes, slot 0 has no neighbor, slot 1 has one
(slot 2, already assigned). -/
def pC3 : Puzzle where
  vars := [0, 1, 2]
  length := fun _ => 1
  overlaps := fun x y =>
    match x, y with
    | 1, 2 => some (0, 0)
    | 2, 1 => some (0, 0)
    | _, _ => none
  words := [['a'], ['b']]

def dC3 : Domains :=
  fun _ => [['a'], ['b']]

def aC3 : Assignment :=
  [(2, ['a'])]

/-- Claim C3 fails on the code: with slots 0 and 1 tied on remaining domain
size (two words each) and degrees 0 and 1 respectively, the source's
ascending sort key (line 209) selects slot 0, the slot of LOWEST degree,
where the documented heuristic (docstring lines 204-205 and spec §4.4)
demands the highest-degree slot, slot 1. -/
theorem claim_C3_degree_tiebreak_bug :
    select_unassigned_variable pC3 dC3 aC3 = some 0 ∧
    (lookupA aC3 0).isSome = false ∧ (lookupA aC3 1).isSome = false ∧
    (dC3 0).length = (dC3 1).length ∧
    (neighbors pC3 0).length < (neighbors pC3 1).length := by
  refine ⟨?_, by decide, by decide, by decide, by decide⟩
  decide

/-- Two-slot puzzle whose slot set is `{0, 1}`. -/
def pC9 : Puzzle where
  vars := [0, 1]
  length := fun _ => 1
  overlaps := fun _ _ => none
  words := [['a'], ['b']]

/-- An assignment whose keys 5 and 6 are no slots of `pC9` at all. -/
def aC9 : Assignment :=
  [(5, ['a']), (6, ['b'])]

/-- Claim C9 as stated is false: `assignment_complete` compares only entry
counts (source line 160), so an assignment of two non-slot keys counts as
complete although its key set differs from the slot set. -/
theorem claim_C9_counterexample :
    assignment_complete pC9 aC9 = true ∧ 5 ∈ keysA aC9 ∧ 5 ∉ pC9.vars := by
  decide

/-- Claim C9, amended: `assignment_complete` returns true iff the entry
count equals the slot count; for assignments whose keys are distinct slots
of the puzzle this coincides with the key set being exactly the slot set. -/
theorem claim_C9_amended_complete (p : Puzzle) (a : Assignment)
    (hk : (keysA a).Nodup) (hv : p.vars.Nodup)
    (hsub : ∀ k ∈ keysA a, k ∈ p.vars) :
    assignment_complete p a = true ↔ ∀ v ∈ p.vars, v ∈ keysA a := by
  unfold assignment_complete
  rw [beq_iff_eq]
  have hlen : (keysA a).length = a.length := List.length_map a Prod.fst
  have hcardK : (keysA a).toFinset.card = (keysA a).length :=
    List.toFinset_card_of_nodup hk
  have hcardV : p.vars.toFinset.card = p.vars.length :=
    List.toFinset_card_of_nodup hv
  have hKV : (keysA a).toFinset ⊆ p.vars.toFinset := by
    intro k hkmem
    rw [List.mem_toFinset] at hkmem ⊢
    exact hsub k hkmem
  constructor
  · intro hl v hvmem
    have : p.vars.toFinset ⊆ (keysA a).toFinset := by
      apply Finset.subset_of_eq
      symm
      apply Finset.eq_of_subset_of_card_le hKV
      omega
    have := this (List.mem_toFinset.mpr hvmem)
    exact List.mem_toFinset.mp this
  · intro hall
    have hVK : p.vars.toFinset ⊆ (keysA a).toFinset := by
      intro v hvmem
      rw [List.mem_toFinset] at hvmem ⊢
      exact hall v hvmem
    have := Finset.card_le_card hVK
    have := Finset.card_le_card hKV
    omega

def pW9 : Puzzle where
  vars := [0]
  length := fun _ => 1
  overlaps := fun _ _ => none
  words := [['a']]

def aW9 : Assignment :=
  [(0, ['a'])]

theorem claim_C9_witness :
    ((keysA aW9).Nodup ∧ pW9.vars.Nodup) ∧ assignment_complete pW9 aW9 = true :=
  ⟨⟨by decide, by decide⟩,
    (claim_C9_amended_complete pW9 aW9 (by decide) (by decide) (by decide)).mpr
      (by decide)⟩

theorem distinctValuesB_iff (a : Assignment) :
    distinctValuesB a = true ↔ (a.map Prod.snd).Nodup := by
  unfold distinctValuesB
  rw [beq_iff_eq]
  constructor
  · intro h
    have hs : (a.map Prod.snd).dedup.Sublist (a.map Prod.snd) :=
      List.dedup_sublist (a.map Prod.snd)
    have heq := hs.eq_of_length (by rw [h, List.length_map])
    rw [← heq]
    exact (a.map Prod.snd).nodup_dedup
  · intro h
    rw [List.Nodup.dedup h, List.length_map]

theorem lengthFitB_iff (p : Puzzle) (a : Assignment) :
    lengthFitB p a = true ↔ ∀ pr ∈ a, pr.2.length = p.length pr.1 := by
  unfold lengthFitB
  rw [List.all_eq_true]
  constructor
  · intro h pr hpr
    exact beq_iff_eq.mp (h pr hpr)
  · intro h pr hpr
    exact beq_iff_eq.mpr (h pr hpr)

/-- The pairwise agreement condition of the spec, over all ordered pairs of
distinct assigned slots. -/
def overlapAgree (p : Puzzle) (a : Assignment) : Prop :=
  ∀ pr1 ∈ a, ∀ pr2 ∈ a, pr1.1 ≠ pr2.1 →
    ∀ ov, p.overlaps pr1.1 pr2.1 = some ov →
      charAt pr1.2 ov.1 = charAt pr2.2 ov.2

theorem pairsAgreeB_iff (p : Puzzle)
    (hsym : ∀ x y i j, p.overlaps x y = some (i, j) → p.overlaps y x = some (j, i)) :
    ∀ a : Assignment, (keysA a).Nodup →
      (pairsAgreeB p a = true ↔ overlapAgree p a) := by
  intro a
  induction a with
  | nil =>
    intro _
    constructor
    · intro _ pr1 h1; simp at h1
    · intro _; rfl
  | cons hd rest ih =>
    intro hk
    obtain ⟨x, wx⟩ := hd
    have hk1 : x ∉ keysA rest := by
      have := (List.nodup_cons.mp hk).1
      simpa [keysA] using this
    have hk2 : (keysA rest).Nodup := (List.nodup_cons.mp hk).2
    constructor
    · intro h pr1 h1 pr2 h2 hne ov hov
      rw [show pairsAgreeB p ((x, wx) :: rest) =
        ((rest.all (fun pr =>
          match p.overlaps x pr.1 with
          | none => true
          | some ov => charAt wx ov.1 == charAt pr.2 ov.2)) && pairsAgreeB p rest)
        from rfl, Bool.and_eq_true, List.all_eq_true] at h
      obtain ⟨v1, w1⟩ := pr1
      obtain ⟨v2, w2⟩ := pr2
      obtain ⟨i, j⟩ := ov
      simp only at hne hov ⊢
      rcases List.mem_cons.mp h1 with h1h | h1r
      · rw [Prod.mk.injEq] at h1h
        obtain ⟨rfl, rfl⟩ := h1h
        rcases List.mem_cons.mp h2 with h2h | h2r
        · rw [Prod.mk.injEq] at h2h
          exact absurd h2h.1.symm hne
        · have hall := h.1 (v2, w2) h2r
          simp only at hall
          rw [hov] at hall
          exact beq_iff_eq.mp hall
      · rcases List.mem_cons.mp h2 with h2h | h2r
        · rw [Prod.mk.injEq] at h2h
          obtain ⟨rfl, rfl⟩ := h2h
          have hsw := hsym v1 v2 i j hov
          have hall := h.1 (v1, w1) h1r
          simp only at hall
          rw [hsw] at hall
          exact (beq_iff_eq.mp hall).symm
        · exact (ih hk2).mp h.2 (v1, w1) h1r (v2, w2) h2r hne (i, j) hov
    · intro h
      rw [show pairsAgreeB p ((x, wx) :: rest) =
        ((rest.all (fun pr =>
          match p.overlaps x pr.1 with
          | none => true
          | some ov => charAt wx ov.1 == charAt pr.2 ov.2)) && pairsAgreeB p rest)
        from rfl, Bool.and_eq_true, List.all_eq_true]
      constructor
      · intro pr hpr
        have hne : x ≠ pr.1 := by
          intro hxe
          apply hk1
          rw [hxe]
          exact List.mem_map.mpr ⟨pr, hpr, rfl⟩
        cases hov : p.overlaps x pr.1 with
        | none => rfl
        | some ov =>
          have := h (x, wx) (List.mem_cons_self _ _) pr
            (List.mem_cons_of_mem _ hpr) hne ov hov
          exact beq_iff_eq.mpr this
      · apply (ih hk2).mpr
        intro pr1 h1 pr2 h2 hne ov hov
        exact h pr1 (List.mem_cons_of_mem _ h1) pr2 (List.mem_cons_of_mem _ h2) hne ov hov

/-- Claim C7: `consistent` is true exactly when the assigned words are
pairwise distinct, each assigned word has its slot's length, and every pair
of assigned slots with a defined overlap agrees at the shared indices.
(`consistent` is a pure function of the puzzle and the assignment in this
embedding: it touches no Domain Store.) -/
theorem claim_C7_consistent (p : Puzzle) (a : Assignment)
    (hk : (keysA a).Nodup)
    (hsym : ∀ x y i j, p.overlaps x y = some (i, j) → p.overlaps y x = some (j, i)) :
    consistent p a = true ↔
      ((a.map Prod.snd).Nodup ∧
       (∀ pr ∈ a, pr.2.length = p.length pr.1) ∧
       overlapAgree p a) := by
  unfold consistent
  rw [Bool.and_eq_true, Bool.and_eq_true]
  rw [distinctValuesB_iff, lengthFitB_iff, pairsAgreeB_iff p hsym a hk]
  tauto

def pW7 : Puzzle where
  vars := [0]
  length := fun _ => 1
  overlaps := fun _ _ => none
  words := [['a']]

def aW7 : Assignment :=
  [(0, ['a'])]

theorem claim_C7_witness :
    (keysA aW7).Nodup ∧ consistent pW7 aW7 = true := by
  refine ⟨by decide, ?_⟩
  apply (claim_C7_consistent pW7 aW7 (by decide)
    (fun x y i j h => nomatch h)).mpr
  refine ⟨by decide, by decide, ?_⟩
  intro pr1 h1 pr2 h2 hne ov hov
  exact nomatch hov

/-- Overlap constraint of a total slot-to-word map for one ordered slot
pair, as a decidable check. -/
def overlapFitB (p : Puzzle) (f : ℕ → Word) (u v : ℕ) : Bool :=
  match p.overlaps u v with
  | none => true
  | some ov => charAt (f u) ov.1 == charAt (f v) ov.2

/-- A complete, consistent assignment over the given vocabulary, as a total
map on slots: every slot gets a vocabulary word of its length, words of
distinct slots differ, and all defined overlaps agree. -/
def isSolution (p : Puzzle) (f : ℕ → Word) : Prop :=
  (∀ v ∈ p.vars, f v ∈ p.words) ∧
  (∀ v ∈ p.vars, (f v).length = p.length v) ∧
  (∀ u ∈ p.vars, ∀ v ∈ p.vars, u ≠ v → f u ≠ f v) ∧
  (∀ u ∈ p.vars, ∀ v ∈ p.vars, overlapFitB p f u v = true)

/-- Satisfiability of a puzzle: some complete, consistent assignment over
the given vocabulary exists. -/
def satisfiable (p : Puzzle) : Prop :=
  ∃ f, isSolution p f

theorem isSolution_overlap (p : Puzzle) (f : ℕ → Word) (hf : isSolution p f)
    (u v : ℕ) (hu : u ∈ p.vars) (hv : v ∈ p.vars) (ov : ℕ × ℕ)
    (hov : p.overlaps u v = some ov) :
    charAt (f u) ov.1 = charAt (f v) ov.2 := by
  have h := hf.2.2.2 u hu v hv
  unfold overlapFitB at h
  rw [hov] at h
  exact beq_iff_eq.mp h

/-- Solution preservation: every solution's word for every slot stays in
the Domain Store. Every pruning the solver performs is sound with respect
to this invariant. -/
def DomInv (p : Puzzle) (d : Domains) : Prop :=
  ∀ v ∈ p.vars, ∀ f : ℕ → Word, isSolution p f → f v ∈ d v

/-- Every domain only ever holds vocabulary words. -/
def WordsInv (p : Puzzle) (d : Domains) : Prop :=
  ∀ v, ∀ w ∈ d v, w ∈ p.words

theorem DomInv_init (p : Puzzle) : DomInv p (initDomains p) :=
  fun v hv _ hf => hf.1 v hv

theorem WordsInv_init (p : Puzzle) : WordsInv p (initDomains p) :=
  fun _ w hw => hw

theorem node_sublist (p : Puzzle) (d : Domains) (v : ℕ) :
    ((enforce_node_consistency p d) v).Sublist (d v) := by
  unfold enforce_node_consistency
  by_cases hv : v ∈ p.vars
  · rw [if_pos hv]
    exact removalPass_sublist _ _ _ _
  · rw [if_neg hv]

theorem DomInv_node (p : Puzzle) (d : Domains) (h : DomInv p d) :
    DomInv p (enforce_node_consistency p d) := by
  intro v hv f hf
  unfold enforce_node_consistency
  rw [if_pos hv]
  apply removalPass_mem_of_kept _ _ _ _ _ (h v hv f hf)
  exact beq_iff_eq.mpr (hf.2.1 v hv)

theorem WordsInv_node (p : Puzzle) (d : Domains) (h : WordsInv p d) :
    WordsInv p (enforce_node_consistency p d) :=
  fun v w hw => h v w ((node_sublist p d v).mem hw)

theorem DomInv_revise (p : Puzzle) (d : Domains) (x y : ℕ) (hx : x ∈ p.vars)
    (hy : y ∈ p.vars) (hxy : x ≠ y) (h : DomInv p d) :
    DomInv p (revise p d x y).1 := by
  intro v hv f hf
  by_cases hvx : v = x
  · subst hvx
    apply revise_mem_of_support p d v y (f v) (h v hv f hf)
    intro ov hov
    rw [hasSupport_iff]
    exact ⟨f y, h y hy f hf, isSolution_overlap p f hf v y hv hy ov hov⟩
  · rw [revise_frame p d x y v hvx]
    exact h v hv f hf

theorem WordsInv_revise (p : Puzzle) (d : Domains) (x y : ℕ) (h : WordsInv p d) :
    WordsInv p (revise p d x y).1 :=
  fun v w hw => h v w ((revise_subset p d x y v).mem hw)

theorem DomInv_ac3 (p : Puzzle) (d : Domains) (arcs : List (ℕ × ℕ))
    (h : DomInv p d) : DomInv p (ac3Aux p d arcs).1 :=
  ac3Aux_preserves p (DomInv p)
    (fun dd x y hx hy hxy hdd => DomInv_revise p dd x y hx hy hxy hdd) d arcs h

theorem WordsInv_ac3 (p : Puzzle) (d : Domains) (arcs : List (ℕ × ℕ))
    (h : WordsInv p d) : WordsInv p (ac3Aux p d arcs).1 :=
  ac3Aux_preserves p (WordsInv p)
    (fun dd x y _ _ _ hdd => WordsInv_revise p dd x y hdd) d arcs h

theorem lookupA_isSome_iff (v : ℕ) :
    ∀ a : Assignment, (lookupA a v).isSome = true ↔ v ∈ keysA a := by
  intro a
  induction a with
  | nil => simp [lookupA, keysA, List.lookup]
  | cons pr rest ih =>
    obtain ⟨k, w⟩ := pr
    unfold lookupA at ih ⊢
    by_cases hk : v = k
    · have hvk : (v == k) = true := beq_iff_eq.mpr hk
      simp [List.lookup, hvk, keysA, hk]
    · have hvk : (v == k) = false := beq_eq_false_iff_ne.mpr hk
      rw [show List.lookup v ((k, w) :: rest) = List.lookup v rest by
        simp [List.lookup, hvk]]
      rw [ih]
      simp [keysA, hk]

theorem lookupA_eq_none_iff (a : Assignment) (v : ℕ) :
    lookupA a v = none ↔ v ∉ keysA a := by
  rw [← lookupA_isSome_iff v a]
  cases h : lookupA a v <;> simp

theorem lookupA_mem (v : ℕ) (w : Word) :
    ∀ a : Assignment, lookupA a v = some w → (v, w) ∈ a := by
  intro a
  induction a with
  | nil => intro h; simp [lookupA, List.lookup] at h
  | cons pr rest ih =>
    intro h
    obtain ⟨k, u⟩ := pr
    unfold lookupA at h
    by_cases hk : v = k
    · have hvk : (v == k) = true := beq_iff_eq.mpr hk
      rw [show List.lookup v ((k, u) :: rest) = some u by simp [List.lookup, hvk]] at h
      injection h with h
      subst h
      rw [hk]
      exact List.mem_cons_self _ _
    · have hvk : (v == k) = false := beq_eq_false_iff_ne.mpr hk
      rw [show List.lookup v ((k, u) :: rest) = List.lookup v rest by
        simp [List.lookup, hvk]] at h
      exact List.mem_cons_of_mem _ (ih h)

theorem insertA_of_not_mem (a : Assignment) (v : ℕ) (w : Word)
    (h : lookupA a v = none) : insertA a v w = a ++ [(v, w)] := by
  unfold insertA
  rw [h]
  rfl

theorem keysA_append_single (a : Assignment) (v : ℕ) (w : Word) :
    keysA (a ++ [(v, w)]) = keysA a ++ [v] := by
  unfold keysA
  rw [List.map_append]
  rfl

/-- The key-set discipline every assignment of the search obeys: distinct
keys, all of them slots. -/
def AKeysOK (p : Puzzle) (a : Assignment) : Prop :=
  (keysA a).Nodup ∧ ∀ k ∈ keysA a, k ∈ p.vars

theorem AKeysOK_insert (p : Puzzle) (a : Assignment) (var : ℕ) (w : Word)
    (h : AKeysOK p a) (hvar : var ∈ p.vars) (hnone : lookupA a var = none) :
    AKeysOK p (insertA a var w) := by
  rw [insertA_of_not_mem a var w hnone]
  constructor
  · rw [keysA_append_single]
    apply List.Nodup.append h.1 (List.nodup_singleton var)
    intro k hk1 hk2
    rw [List.mem_singleton] at hk2
    subst hk2
    exact (lookupA_eq_none_iff a k).mp hnone hk1
  · intro k hk
    rw [keysA_append_single] at hk
    rcases List.mem_append.mp hk with h1 | h1
    · exact h.2 k h1
    · rw [List.mem_singleton] at h1
      subst h1
      exact hvar

/-- The assignment agrees with the total map `f` on every entry. -/
def subSol (f : ℕ → Word) (a : Assignment) : Prop :=
  ∀ pr ∈ a, f pr.1 = pr.2

theorem subSol_insert (f : ℕ → Word) (a : Assignment) (var : ℕ)
    (h : subSol f a) (hnone : lookupA a var = none) :
    subSol f (insertA a var (f var)) := by
  rw [insertA_of_not_mem a var (f var) hnone]
  intro pr hpr
  rcases List.mem_append.mp hpr with h1 | h1
  · exact h pr h1
  · rw [List.mem_singleton] at h1
    subst h1
    rfl

theorem map_snd_of_subSol (f : ℕ → Word) :
    ∀ a : Assignment, subSol f a → a.map Prod.snd = (keysA a).map f := by
  intro a
  induction a with
  | nil => intro _; rfl
  | cons pr rest ih =>
    intro h
    unfold keysA
    simp only [List.map_cons]
    rw [show f pr.1 = pr.2 from h pr (List.mem_cons_self _ _)]
    congr 1
    exact ih (fun q hq => h q (List.mem_cons_of_mem _ hq))

/-- The restriction of a solution to any set of distinct slots passes
`consistent`. -/
theorem consistent_subSol (p : Puzzle) (f : ℕ → Word) (a : Assignment)
    (hf : isSolution p f) (hsol : subSol f a) (hkeys : AKeysOK p a)
    (hsym : ∀ x y i j, p.overlaps x y = some (i, j) → p.overlaps y x = some (j, i)) :
    consistent p a = true := by
  unfold consistent
  rw [Bool.and_eq_true, Bool.and_eq_true]
  refine ⟨⟨?_, ?_⟩, ?_⟩
  · rw [distinctValuesB_iff, map_snd_of_subSol f a hsol]
    apply List.Nodup.map_on _ hkeys.1
    intro u hu v hv hfe
    by_contra hne
    exact hf.2.2.1 u (hkeys.2 u hu) v (hkeys.2 v hv) hne hfe
  · rw [lengthFitB_iff]
    intro pr hpr
    rw [← hsol pr hpr]
    exact hf.2.1 pr.1 (hkeys.2 pr.1 (List.mem_map.mpr ⟨pr, hpr, rfl⟩))
  · rw [pairsAgreeB_iff p hsym a hkeys.1]
    intro pr1 h1 pr2 h2 hne ov hov
    rw [← hsol pr1 h1, ← hsol pr2 h2]
    exact isSolution_overlap p f hf pr1.1 pr2.1
      (hkeys.2 pr1.1 (List.mem_map.mpr ⟨pr1, h1, rfl⟩))
      (hkeys.2 pr2.1 (List.mem_map.mpr ⟨pr2, h2, rfl⟩)) ov hov

theorem mem_insertSorted (key : Word → ℕ) (w u : Word) :
    ∀ l : List Word, (u ∈ insertSorted key w l ↔ u = w ∨ u ∈ l) := by
  intro l
  induction l with
  | nil => simp [insertSorted]
  | cons x xs ih =>
    unfold insertSorted
    by_cases h : key w ≤ key x
    · simp [h]
    · simp only [if_neg h, List.mem_cons, ih]
      tauto

theorem mem_sortByKey (key : Word → ℕ) (u : Word) :
    ∀ l : List Word, (u ∈ sortByKey key l ↔ u ∈ l) := by
  intro l
  induction l with
  | nil => simp [sortByKey]
  | cons x xs ih =>
    unfold sortByKey at ih ⊢
    simp only [List.foldr_cons, mem_insertSorted, List.mem_cons, ih]

theorem mem_order_domain_values (p : Puzzle) (d : Domains) (var : ℕ)
    (a : Assignment) (w : Word) :
    w ∈ order_domain_values p d var a ↔ w ∈ d var :=
  mem_sortByKey (ruleOut p d var a) w (d var)

theorem foldl_min_mem (k : ℕ → ℕ × ℕ) :
    ∀ (l : List ℕ) (b : ℕ),
      l.foldl (fun best x => if keyLt (k x) (k best) then x else best) b ∈ b :: l := by
  intro l
  induction l with
  | nil => intro b; simp
  | cons a rest ih =>
    intro b
    simp only [List.foldl_cons]
    by_cases h : keyLt (k a) (k b)
    · rw [if_pos h]
      have := ih a
      rcases List.mem_cons.mp this with h1 | h1
      · rw [h1]; simp
      · simp [h1]
    · rw [if_neg h]
      have := ih b
      rcases List.mem_cons.mp this with h1 | h1
      · rw [h1]; simp
      · simp [h1]

theorem select_some_mem (p : Puzzle) (d : Domains) (a : Assignment) (v : ℕ)
    (h : select_unassigned_variable p d a = some v) :
    v ∈ p.vars ∧ lookupA a v = none := by
  unfold select_unassigned_variable at h
  cases hfl : p.vars.filter (fun v => !(lookupA a v).isSome) with
  | nil => rw [hfl] at h; exact absurd h (by simp)
  | cons hd tl =>
    rw [hfl] at h
    injection h with h
    have hmem : v ∈ hd :: tl := by
      rw [← h]
      exact foldl_min_mem (selectKey p d) tl hd
    rw [← hfl] at hmem
    rw [List.mem_filter] at hmem
    refine ⟨hmem.1, ?_⟩
    have := hmem.2
    simp only [Bool.not_eq_true'] at this
    exact Option.not_isSome_iff_eq_none.mp (by simp [this])

/-- Number of unassigned slots. -/
def unassignedCount (p : Puzzle) (a : Assignment) : ℕ :=
  (p.vars.filter (fun v => !(lookupA a v).isSome)).length

theorem select_isSome_of_incomplete (p : Puzzle) (d : Domains) (a : Assignment)
    (hzc : 0 < unassignedCount p a) :
    ∃ v, select_unassigned_variable p d a = some v := by
  unfold unassignedCount at hzc
  unfold select_unassigned_variable
  cases hfl : p.vars.filter (fun v => !(lookupA a v).isSome) with
  | nil => rw [hfl] at hzc; simp at hzc
  | cons hd tl => exact ⟨_, rfl⟩

theorem backArcs_wf (p : Puzzle) (a : Assignment) : arcsWF p (backArcs p a) := by
  intro pr hpr
  unfold backArcs at hpr
  rw [List.mem_flatten] at hpr
  obtain ⟨l, hl, hprl⟩ := hpr
  rw [List.mem_map] at hl
  obtain ⟨x, hx, rfl⟩ := hl
  rw [List.mem_map] at hprl
  obtain ⟨y, hy, rfl⟩ := hprl
  rw [List.mem_filter] at hx hy
  have hyx : y ≠ x := by
    have := hy.2
    simp at this
    exact this.1
  exact ⟨hx.1, hy.1, fun h => hyx h.symm⟩

theorem btLoop_preserves (p : Puzzle) (M : Domains → Prop)
    (hM : ∀ d x y, x ∈ p.vars → y ∈ p.vars → x ≠ y → M d → M ((revise p d x y).1))
    (fuel : ℕ)
    (hbt : ∀ d a, M d → M ((backtrack p fuel d a).1)) :
    ∀ ws d a var, M d → M ((btLoop p fuel d a var ws).1) := by
  intro ws
  induction ws with
  | nil => intro d a var h; rw [btLoop]; exact h
  | cons w rest ih =>
    intro d a var h
    rw [btLoop]
    by_cases hcons : consistent p (insertA a var w) = true
    · rw [if_pos hcons]
      have hM1 : M ((ac3 p d (some (backArcs p (insertA a var w)))).1) :=
        ac3Aux_preserves p M hM d _ h
      cases hres : backtrack p fuel ((ac3 p d (some (backArcs p (insertA a var w)))).1)
          (insertA a var w) with
      | mk d2 o =>
        have hM2 : M d2 := by
          have := hbt ((ac3 p d (some (backArcs p (insertA a var w)))).1)
            (insertA a var w) hM1
          rw [hres] at this
          exact this
        cases o with
        | some res => exact hM2
        | none => exact ih d2 a var hM2
    · rw [if_neg hcons]
      exact ih d a var h

theorem bt_preserves (p : Puzzle) (M : Domains → Prop)
    (hM : ∀ d x y, x ∈ p.vars → y ∈ p.vars → x ≠ y → M d → M ((revise p d x y).1)) :
    ∀ fuel d a, M d → M ((backtrack p fuel d a).1) := by
  intro fuel
  induction fuel with
  | zero => intro d a h; rw [backtrack]; exact h
  | succ fuel ih =>
    intro d a h
    rw [backtrack]
    by_cases hc : assignment_complete p a = true
    · rw [if_pos hc]; exact h
    · rw [if_neg hc]
      cases hsel : select_unassigned_variable p d a with
      | none => exact h
      | some var => exact btLoop_preserves p M hM fuel ih _ d a var h

theorem btLoop_sound (p : Puzzle) (fuel : ℕ)
    (hbt : ∀ d a r, AKeysOK p a → consistent p a = true →
      (∀ pr ∈ a, pr.2 ∈ p.words) → WordsInv p d →
      (backtrack p fuel d a).2 = some r →
      assignment_complete p r = true ∧ consistent p r = true ∧ AKeysOK p r ∧
        (∀ pr ∈ r, pr.2 ∈ p.words)) :
    ∀ ws d a var r, AKeysOK p a → (∀ pr ∈ a, pr.2 ∈ p.words) → WordsInv p d →
      var ∈ p.vars → lookupA a var = none → (∀ w ∈ ws, w ∈ p.words) →
      (btLoop p fuel d a var ws).2 = some r →
      assignment_complete p r = true ∧ consistent p r = true ∧ AKeysOK p r ∧
        (∀ pr ∈ r, pr.2 ∈ p.words) := by
  intro ws
  induction ws with
  | nil =>
    intro d a var r _ _ _ _ _ _ hres
    rw [btLoop] at hres
    simp at hres
  | cons w rest ih =>
    intro d a var r hkeys hvals hwinv hvar hnone hws hres
    rw [btLoop] at hres
    by_cases hcons : consistent p (insertA a var w) = true
    · rw [if_pos hcons] at hres
      have hkeys' : AKeysOK p (insertA a var w) :=
        AKeysOK_insert p a var w hkeys hvar hnone
      have hvals' : ∀ pr ∈ insertA a var w, pr.2 ∈ p.words := by
        rw [insertA_of_not_mem a var w hnone]
        intro pr hpr
        rcases List.mem_append.mp hpr with h1 | h1
        · exact hvals pr h1
        · rw [List.mem_singleton] at h1
          subst h1
          exact hws w (List.mem_cons_self _ _)
      have hwinv1 : WordsInv p ((ac3 p d (some (backArcs p (insertA a var w)))).1) :=
        WordsInv_ac3 p d _ hwinv
      cases hres2 : backtrack p fuel ((ac3 p d (some (backArcs p (insertA a var w)))).1)
          (insertA a var w) with
      | mk d2 o =>
        rw [hres2] at hres
        cases o with
        | some res =>
          simp at hres
          subst hres
          exact hbt _ _ _ hkeys' hcons hvals' hwinv1 (by rw [hres2])
        | none =>
          have hwinv2 : WordsInv p d2 := by
            have := bt_preserves p (WordsInv p)
              (fun dd x y _ _ _ hdd => WordsInv_revise p dd x y hdd) fuel _
              (insertA a var w) hwinv1
            rw [hres2] at this
            exact this
          exact ih d2 a var r hkeys hvals hwinv2 hvar hnone
            (fun u hu => hws u (List.mem_cons_of_mem _ hu)) hres
    · rw [if_neg hcons] at hres
      exact ih d a var r hkeys hvals hwinv hvar hnone
        (fun u hu => hws u (List.mem_cons_of_mem _ hu)) hres

theorem bt_sound (p : Puzzle) :
    ∀ fuel d a r, AKeysOK p a → consistent p a = true →
      (∀ pr ∈ a, pr.2 ∈ p.words) → WordsInv p d →
      (backtrack p fuel d a).2 = some r →
      assignment_complete p r = true ∧ consistent p r = true ∧ AKeysOK p r ∧
        (∀ pr ∈ r, pr.2 ∈ p.words) := by
  intro fuel
  induction fuel with
  | zero =>
    intro d a r _ _ _ _ hres
    rw [backtrack] at hres
    simp at hres
  | succ fuel ih =>
    intro d a r hkeys hcons hvals hwinv hres
    rw [backtrack] at hres
    by_cases hc : assignment_complete p a = true
    · rw [if_pos hc] at hres
      simp at hres
      subst hres
      exact ⟨hc, hcons, hkeys, hvals⟩
    · rw [if_neg hc] at hres
      cases hsel : select_unassigned_variable p d a with
      | none => rw [hsel] at hres; simp at hres
      | some var =>
        rw [hsel] at hres
        obtain ⟨hvar, hnone⟩ := select_some_mem p d a var hsel
        apply btLoop_sound p fuel ih _ d a var r hkeys hvals hwinv hvar hnone _ hres
        intro w hw
        rw [mem_order_domain_values] at hw
        exact hwinv var w hw

theorem consistent_nil (p : Puzzle) : consistent p [] = true := rfl

theorem solve_sound (p : Puzzle) (r : Assignment) (hr : solve p = some r) :
    assignment_complete p r = true ∧ consistent p r = true ∧ AKeysOK p r ∧
      (∀ pr ∈ r, pr.2 ∈ p.words) := by
  unfold solve at hr
  apply bt_sound p (p.vars.length + 1) _ [] r ?_ (consistent_nil p) ?_ ?_ hr
  · exact ⟨List.nodup_nil, by simp [keysA]⟩
  · simp
  · exact WordsInv_ac3 p _ _ (WordsInv_node p _ (WordsInv_init p))

theorem keys_cover_of_complete (p : Puzzle) (a : Assignment) (hv : p.vars.Nodup)
    (hkeys : AKeysOK p a) (hc : assignment_complete p a = true) :
    ∀ v ∈ p.vars, v ∈ keysA a := by
  unfold assignment_complete at hc
  rw [beq_iff_eq] at hc
  have hlen : (keysA a).length = a.length := List.length_map a Prod.fst
  have hcardK : (keysA a).toFinset.card = (keysA a).length :=
    List.toFinset_card_of_nodup hkeys.1
  have hcardV : p.vars.toFinset.card = p.vars.length :=
    List.toFinset_card_of_nodup hv
  have hKV : (keysA a).toFinset ⊆ p.vars.toFinset := by
    intro k hkmem
    rw [List.mem_toFinset] at hkmem ⊢
    exact hkeys.2 k hkmem
  intro v hvmem
  have hsub : p.vars.toFinset ⊆ (keysA a).toFinset := by
    apply Finset.subset_of_eq
    symm
    apply Finset.eq_of_subset_of_card_le hKV
    omega
  exact List.mem_toFinset.mp (hsub (List.mem_toFinset.mpr hvmem))

theorem satisfiable_of_solve (p : Puzzle) (hwf : p.WF) (r : Assignment)
    (hr : solve p = some r) : satisfiable p := by
  obtain ⟨hc, hcons, hkeys, hvals⟩ := solve_sound p r hr
  have hcover := keys_cover_of_complete p r hwf.nodupVars hkeys hc
  have hget : ∀ v ∈ p.vars, (v, (lookupA r v).getD []) ∈ r := by
    intro v hv
    have hk : v ∈ keysA r := hcover v hv
    rw [← lookupA_isSome_iff] at hk
    obtain ⟨w, hw⟩ := Option.isSome_iff_exists.mp hk
    rw [hw]
    exact lookupA_mem v w r hw
  unfold consistent at hcons
  rw [Bool.and_eq_true, Bool.and_eq_true] at hcons
  obtain ⟨⟨hdist, hlen⟩, hpairs⟩ := hcons
  rw [distinctValuesB_iff] at hdist
  rw [lengthFitB_iff] at hlen
  rw [pairsAgreeB_iff p hwf.ovSymm r hkeys.1] at hpairs
  refine ⟨fun v => (lookupA r v).getD [], ?_, ?_, ?_, ?_⟩
  · intro v hv
    exact hvals _ (hget v hv)
  · intro v hv
    exact hlen _ (hget v hv)
  · intro u hu v hv hne hfe
    exact hne (congrArg Prod.fst
      (List.inj_on_of_nodup_map hdist (hget u hu) (hget v hv) hfe))
  · intro u hu v hv
    unfold overlapFitB
    cases hov : p.overlaps u v with
    | none => rfl
    | some ov =>
      have hne : u ≠ v := by
        intro he
        rw [he, hwf.ovIrrefl v] at hov
        exact nomatch hov
      have := hpairs (u, (lookupA r u).getD []) (hget u hu)
        (v, (lookupA r v).getD []) (hget v hv) hne ov hov
      exact beq_iff_eq.mpr this

/-- Claim C2: on an unsatisfiable puzzle (no complete consistent assignment
over the vocabulary exists), `solve` returns the failure sentinel `None`
(the embedding is total, so no exception can be modelled to escape),
whether the domains were emptied by consistency enforcement or the search
exhausted all branches. -/
theorem claim_C2_solve_unsat (p : Puzzle) (hwf : p.WF)
    (hunsat : ¬ satisfiable p) : solve p = none := by
  cases h : solve p with
  | none => rfl
  | some r => exact absurd (satisfiable_of_solve p hwf r h) hunsat

theorem lookupA_append_isSome (var v : ℕ) (w : Word) :
    ∀ a : Assignment,
      (lookupA (a ++ [(var, w)]) v).isSome = ((lookupA a v).isSome || var == v) := by
  intro a
  induction a with
  | nil =>
    by_cases h : v = var
    · have h1 : (v == var) = true := beq_iff_eq.mpr h
      have h2 : (var == v) = true := beq_iff_eq.mpr h.symm
      simp [lookupA, List.lookup, h1, h2]
    · have h1 : (v == var) = false := beq_eq_false_iff_ne.mpr h
      have h2 : (var == v) = false := beq_eq_false_iff_ne.mpr (fun e => h e.symm)
      simp [lookupA, List.lookup, h1, h2]
  | cons pr rest ih =>
    obtain ⟨k, u⟩ := pr
    unfold lookupA at ih ⊢
    by_cases h : v = k
    · have h1 : (v == k) = true := beq_iff_eq.mpr h
      simp [List.lookup, h1]
    · have h1 : (v == k) = false := beq_eq_false_iff_ne.mpr h
      rw [List.cons_append]
      rw [show List.lookup v ((k, u) :: (rest ++ [(var, w)])) =
        List.lookup v (rest ++ [(var, w)]) by simp [List.lookup, h1]]
      rw [show List.lookup v ((k, u) :: rest) = List.lookup v rest by
        simp [List.lookup, h1]]
      exact ih

theorem length_filter_ne_lt (var : ℕ) :
    ∀ L : List ℕ, var ∈ L → (L.filter (fun v => !(var == v))).length < L.length := by
  intro L
  induction L with
  | nil => intro h; simp at h
  | cons a rest ih =>
    intro h
    by_cases hav : var = a
    · subst hav
      rw [List.filter_cons]
      have hc : (!(var == var)) = false := by simp
      rw [hc]
      simp only [if_false, Bool.false_eq_true]
      calc (rest.filter (fun v => !(var == v))).length
          ≤ rest.length := List.length_filter_le _ _
        _ < (var :: rest).length := by simp
    · have h1 : var ∈ rest := by
        rcases List.mem_cons.mp h with h2 | h2
        · exact absurd h2 hav
        · exact h2
      rw [List.filter_cons]
      have hc : (!(var == a)) = true := by
        simp [beq_eq_false_iff_ne.mpr hav]
      rw [hc]
      simp only [if_true]
      have := ih h1
      simp only [List.length_cons]
      omega

theorem unassignedCount_insert_lt (p : Puzzle) (a : Assignment) (var : ℕ) (w : Word)
    (hvar : var ∈ p.vars) (hnone : lookupA a var = none) :
    unassignedCount p (insertA a var w) < unassignedCount p a := by
  rw [insertA_of_not_mem a var w hnone]
  unfold unassignedCount
  have heq : p.vars.filter (fun v => !(lookupA (a ++ [(var, w)]) v).isSome) =
      (p.vars.filter (fun v => !(lookupA a v).isSome)).filter (fun v => !(var == v)) := by
    rw [List.filter_filter]
    apply List.filter_congr
    intro v _
    rw [lookupA_append_isSome var v w a, Bool.not_or, Bool.and_comm]
  rw [heq]
  apply length_filter_ne_lt
  apply List.mem_filter.mpr
  exact ⟨hvar, by rw [hnone]; rfl⟩

theorem complete_of_no_unassigned (p : Puzzle) (a : Assignment) (hv : p.vars.Nodup)
    (hkeys : AKeysOK p a) (hz : unassignedCount p a = 0) :
    assignment_complete p a = true := by
  unfold unassignedCount at hz
  rw [List.length_eq_zero] at hz
  have hall : ∀ v ∈ p.vars, v ∈ keysA a := by
    intro v hv2
    by_contra hnk
    have hnone : lookupA a v = none := (lookupA_eq_none_iff a v).mpr hnk
    have hmem : v ∈ p.vars.filter (fun u => !(lookupA a u).isSome) :=
      List.mem_filter.mpr ⟨hv2, by rw [hnone]; rfl⟩
    rw [hz] at hmem
    simp at hmem
  unfold assignment_complete
  rw [beq_iff_eq]
  have h1 : (keysA a).toFinset = p.vars.toFinset :=
    Finset.Subset.antisymm
      (fun k hk => List.mem_toFinset.mpr (hkeys.2 k (List.mem_toFinset.mp hk)))
      (fun v hv3 => List.mem_toFinset.mpr (hall v (List.mem_toFinset.mp hv3)))
  have h2 := List.toFinset_card_of_nodup hkeys.1
  have h3 := List.toFinset_card_of_nodup hv
  have h4 : (keysA a).length = a.length := List.length_map a Prod.fst
  rw [h1] at h2
  omega

theorem btLoop_complete (p : Puzzle) (f : ℕ → Word) (hf : isSolution p f)
    (hsym : ∀ x y i j, p.overlaps x y = some (i, j) → p.overlaps y x = some (j, i))
    (fuel : ℕ)
    (hbt : ∀ d a, DomInv p d → subSol f a → AKeysOK p a →
      unassignedCount p a < fuel → ∃ r, (backtrack p fuel d a).2 = some r) :
    ∀ ws d a var, DomInv p d → subSol f a → AKeysOK p a →
      var ∈ p.vars → lookupA a var = none →
      unassignedCount p (insertA a var (f var)) < fuel →
      f var ∈ ws →
      ∃ r, (btLoop p fuel d a var ws).2 = some r := by
  intro ws
  induction ws with
  | nil => intro d a var _ _ _ _ _ _ hmem; simp at hmem
  | cons w rest ih =>
    intro d a var hdom hsol hkeys hvar hnone hcount hmem
    rw [btLoop]
    by_cases hcons : consistent p (insertA a var w) = true
    · rw [if_pos hcons]
      have hdom1 : DomInv p ((ac3 p d (some (backArcs p (insertA a var w)))).1) :=
        DomInv_ac3 p d _ hdom
      cases hres : backtrack p fuel ((ac3 p d (some (backArcs p (insertA a var w)))).1)
          (insertA a var w) with
      | mk d2 o =>
        cases o with
        | some res => exact ⟨res, rfl⟩
        | none =>
          have hwne : w ≠ f var := by
            intro heq
            subst heq
            obtain ⟨r, hr⟩ := hbt ((ac3 p d (some (backArcs p (insertA a var (f var))))).1)
              (insertA a var (f var)) hdom1
              (subSol_insert f a var hsol hnone)
              (AKeysOK_insert p a var (f var) hkeys hvar hnone) hcount
            rw [hres] at hr
            simp at hr
          have hmem' : f var ∈ rest := by
            rcases List.mem_cons.mp hmem with h1 | h1
            · exact absurd h1.symm hwne
            · exact h1
          have hdom2 : DomInv p d2 := by
            have := bt_preserves p (DomInv p)
              (fun dd x y hx hy hxy hdd => DomInv_revise p dd x y hx hy hxy hdd)
              fuel _ (insertA a var w) hdom1
            rw [hres] at this
            exact this
          exact ih d2 a var hdom2 hsol hkeys hvar hnone hcount hmem'
    · rw [if_neg hcons]
      have hwne : w ≠ f var := by
        intro heq
        subst heq
        exact hcons (consistent_subSol p f (insertA a var (f var)) hf
          (subSol_insert f a var hsol hnone)
          (AKeysOK_insert p a var (f var) hkeys hvar hnone) hsym)
      have hmem' : f var ∈ rest := by
        rcases List.mem_cons.mp hmem with h1 | h1
        · exact absurd h1.symm hwne
        · exact h1
      exact ih d a var hdom hsol hkeys hvar hnone hcount hmem'

theorem bt_complete (p : Puzzle) (f : ℕ → Word) (hf : isSolution p f)
    (hsym : ∀ x y i j, p.overlaps x y = some (i, j) → p.overlaps y x = some (j, i))
    (hv : p.vars.Nodup) :
    ∀ fuel d a, DomInv p d → subSol f a → AKeysOK p a →
      unassignedCount p a < fuel → ∃ r, (backtrack p fuel d a).2 = some r := by
  intro fuel
  induction fuel with
  | zero => intro d a _ _ _ hcount; omega
  | succ fuel ih =>
    intro d a hdom hsol hkeys hcount
    rw [backtrack]
    by_cases hc : assignment_complete p a = true
    · rw [if_pos hc]
      exact ⟨a, rfl⟩
    · rw [if_neg hc]
      have hpos : 0 < unassignedCount p a := by
        rcases Nat.eq_zero_or_pos (unassignedCount p a) with hz | hp
        · exact absurd (complete_of_no_unassigned p a hv hkeys hz) hc
        · exact hp
      obtain ⟨var, hsel⟩ := select_isSome_of_incomplete p d a hpos
      rw [hsel]
      obtain ⟨hvar, hnone⟩ := select_some_mem p d a var hsel
      have hcount2 : unassignedCount p (insertA a var (f var)) < fuel := by
        have := unassignedCount_insert_lt p a var (f var) hvar hnone
        omega
      have hmem : f var ∈ order_domain_values p d var a := by
        rw [mem_order_domain_values]
        exact hdom var hvar f hf
      exact btLoop_complete p f hf hsym fuel
        (fun d' a' hd hs hk hc2 => ih d' a' hd hs hk hc2)
        (order_domain_values p d var a) d a var hdom hsol hkeys hvar hnone hcount2 hmem

theorem solve_of_satisfiable (p : Puzzle) (hwf : p.WF) (hsat : satisfiable p) :
    ∃ r, solve p = some r := by
  obtain ⟨f, hf⟩ := hsat
  unfold solve
  apply bt_complete p f hf hwf.ovSymm hwf.nodupVars (p.vars.length + 1) _ []
  · exact DomInv_ac3 p _ _ (DomInv_node p _ (DomInv_init p))
  · intro pr hpr
    simp at hpr
  · exact ⟨List.nodup_nil, by simp [keysA]⟩
  · unfold unassignedCount
    have hfl : p.vars.filter (fun v => !(lookupA [] v).isSome) = p.vars :=
      List.filter_eq_self.mpr (fun v _ => rfl)
    rw [hfl]
    omega

/-- Claim C1: on every satisfiable puzzle, `solve` returns an assignment
that is both complete and consistent — despite the search mutating the
shared Domain Store in place on every tentative extension without restoring
it on abandoned branches. (Every such mutation is a sound pruning: it never
removes any solution's word, so completeness survives.) -/
theorem claim_C1_solve_satisfiable (p : Puzzle) (hwf : p.WF)
    (hsat : satisfiable p) :
    ∃ r, solve p = some r ∧ assignment_complete p r = true ∧
      consistent p r = true := by
  obtain ⟨r, hr⟩ := solve_of_satisfiable p hwf hsat
  obtain ⟨h1, h2, -, -⟩ := solve_sound p r hr
  exact ⟨r, hr, h1, h2⟩

/-- Two crossing slots of length 2 with a solvable vocabulary. -/
def pW1 : Puzzle where
  vars := [0, 1]
  length := fun _ => 2
  overlaps := fun x y =>
    match x, y with
    | 0, 1 => some (1, 0)
    | 1, 0 => some (0, 1)
    | _, _ => none
  words := [['a', 'b'], ['b', 'a']]

def fW1 : ℕ → Word :=
  fun v => if v = 0 then ['a', 'b'] else ['b', 'a']

instance (p : Puzzle) (f : ℕ → Word) : Decidable (isSolution p f) := by
  unfold isSolution
  infer_instance

theorem pW1_wf : pW1.WF := by
  refine ⟨by decide, by decide, ?_, ?_⟩
  · intro x
    match x with
    | 0 => rfl
    | 1 => rfl
    | n + 2 => rfl
  · intro x y i j h
    rcases x with _ | _ | x
    · rcases y with _ | _ | y
      · exact nomatch h
      · injection h with h2
        injection h2 with h3 h4
        subst h3; subst h4; rfl
      · exact nomatch h
    · rcases y with _ | _ | y
      · injection h with h2
        injection h2 with h3 h4
        subst h3; subst h4; rfl
      · exact nomatch h
      · exact nomatch h
    · exact nomatch h

theorem claim_C1_witness :
    satisfiable pW1 ∧
    (∃ r, solve pW1 = some r ∧ assignment_complete pW1 r = true ∧
      consistent pW1 r = true) :=
  ⟨⟨fW1, by decide⟩, claim_C1_solve_satisfiable pW1 pW1_wf ⟨fW1, by decide⟩⟩

/-- The spec §8 concrete scenario: two slots of length 3 crossing at
indices (1, 0), vocabulary CAT / DOG / TAP — unsatisfiable, since no word's
first letter equals another word's middle letter. -/
def pW2 : Puzzle where
  vars := [0, 1]
  length := fun _ => 3
  overlaps := fun x y =>
    match x, y with
    | 0, 1 => some (1, 0)
    | 1, 0 => some (0, 1)
    | _, _ => none
  words := [['c', 'a', 't'], ['d', 'o', 'g'], ['t', 'a', 'p']]

theorem pW2_wf : pW2.WF := by
  refine ⟨by decide, by decide, ?_, ?_⟩
  · intro x
    match x with
    | 0 => rfl
    | 1 => rfl
    | n + 2 => rfl
  · intro x y i j h
    rcases x with _ | _ | x
    · rcases y with _ | _ | y
      · exact nomatch h
      · injection h with h2
        injection h2 with h3 h4
        subst h3; subst h4; rfl
      · exact nomatch h
    · rcases y with _ | _ | y
      · injection h with h2
        injection h2 with h3 h4
        subst h3; subst h4; rfl
      · exact nomatch h
      · exact nomatch h
    · exact nomatch h

theorem pW2_unsat : ¬ satisfiable pW2 := by
  rintro ⟨f, hf⟩
  have h0 : f 0 ∈ pW2.words := hf.1 0 (by decide)
  have h1 : f 1 ∈ pW2.words := hf.1 1 (by decide)
  have hov : (charAt (f 0) 1 == charAt (f 1) 0) = true :=
    hf.2.2.2 0 (by decide) 1 (by decide)
  simp only [pW2, List.mem_cons, List.mem_singleton, List.not_mem_nil, or_false]
    at h0 h1
  rcases h0 with h0 | h0 | h0 <;> rcases h1 with h1 | h1 | h1 <;>
    rw [h0, h1] at hov <;> exact absurd hov (by decide)

theorem claim_C2_witness : pW2.WF ∧ solve pW2 = none :=
  ⟨pW2_wf, claim_C2_solve_unsat pW2 pW2_wf pW2_unsat⟩

/-- Two slots of the same length with a single vocabulary word of that
length: every hypothesis of claim C8 holds, yet the distinctness constraint
makes the puzzle unsatisfiable. -/
def pC8 : Puzzle where
  vars := [0, 1]
  length := fun _ => 3
  overlaps := fun _ _ => none
  words := [['c', 'a', 't']]

theorem pC8_wf : pC8.WF :=
  ⟨by decide, by decide, fun _ => rfl, fun x y i j h => nomatch h⟩

/-- Claim C8 as stated is false: `pC8` has zero overlaps and a word of
every slot's length, yet `solve` fails, because its two slots would have to
repeat the only 3-letter word and `consistent` rejects repeated words. -/
theorem claim_C8_counterexample :
    (∀ u ∈ pC8.vars, ∀ v ∈ pC8.vars, pC8.overlaps u v = none) ∧
    (∀ v ∈ pC8.vars, ∃ w ∈ pC8.words, w.length = pC8.length v) ∧
    solve pC8 = none := by
  refine ⟨by decide, by decide, ?_⟩
  cases h : solve pC8 with
  | none => rfl
  | some r =>
    exfalso
    obtain ⟨f, hf⟩ := satisfiable_of_solve pC8 pC8_wf r h
    have h0 : f 0 ∈ pC8.words := hf.1 0 (by decide)
    have h1 : f 1 ∈ pC8.words := hf.1 1 (by decide)
    simp only [pC8, List.mem_singleton] at h0 h1
    exact hf.2.2.1 0 (by decide) 1 (by decide) (by decide) (h0.trans h1.symm)

theorem length_filter_erase (q : Word → Bool) (w : Word) :
    ∀ pool : List Word, pool.Nodup → w ∈ pool →
      ((pool.erase w).filter q).length =
        if q w then (pool.filter q).length - 1 else (pool.filter q).length := by
  intro pool
  induction pool with
  | nil => intro _ h; simp at h
  | cons a rest ih =>
    intro hnd hw
    by_cases haw : a = w
    · subst haw
      rw [List.erase_cons_head a rest, List.filter_cons]
      by_cases hqa : q a = true
      · simp [hqa]
      · simp [hqa]
    · have hwr : w ∈ rest := by
        rcases List.mem_cons.mp hw with h | h
        · exact absurd h.symm haw
        · exact h
      have hnd2 : rest.Nodup := (List.nodup_cons.mp hnd).2
      rw [List.erase_cons_tail (by simp [haw]), List.filter_cons, List.filter_cons]
      have hrec := ih hnd2 hwr
      by_cases hqa : q a = true
      · by_cases hqw : q w = true
        · rw [if_pos hqw] at hrec ⊢
          have hwin : w ∈ rest.filter q := List.mem_filter.mpr ⟨hwr, hqw⟩
          have hpos : 0 < (rest.filter q).length :=
            List.length_pos.mpr (List.ne_nil_of_mem hwin)
          simp only [hqa, if_true, List.length_cons]
          omega
        · rw [if_neg hqw] at hrec ⊢
          simp only [hqa, if_true, List.length_cons]
          omega
      · by_cases hqw : q w = true
        · rw [if_pos hqw] at hrec ⊢
          simp only [hqa, Bool.false_eq_true, if_false]
          omega
        · rw [if_neg hqw] at hrec ⊢
          simp only [hqa, Bool.false_eq_true, if_false]
          omega

/-- Greedy injective choice of a word of the right length for each slot,
used to build a solution for overlap-free puzzles. -/
def pickDistinct (p : Puzzle) : List ℕ → List Word → Assignment
  | [], _ => []
  | v :: vs, pool =>
    match (pool.filter (fun w => w.length == p.length v)).head? with
    | none => []
    | some w => (v, w) :: pickDistinct p vs (pool.erase w)

theorem pickDistinct_spec (p : Puzzle) :
    ∀ (slots : List ℕ) (pool : List Word), pool.Nodup →
      (∀ v ∈ slots, (slots.filter (fun u => p.length u == p.length v)).length ≤
        (pool.filter (fun w => w.length == p.length v)).length) →
      keysA (pickDistinct p slots pool) = slots ∧
      (∀ pr ∈ pickDistinct p slots pool, pr.2 ∈ pool ∧ pr.2.length = p.length pr.1) ∧
      ((pickDistinct p slots pool).map Prod.snd).Nodup := by
  intro slots
  induction slots with
  | nil =>
    intro pool _ _
    refine ⟨rfl, ?_, ?_⟩
    · intro pr hpr; simp [pickDistinct] at hpr
    · simp [pickDistinct]
  | cons v vs ih =>
    intro pool hnd hcount
    have hpos : 0 < (pool.filter (fun w => w.length == p.length v)).length := by
      have h1 := hcount v (List.mem_cons_self _ _)
      have hvmem : v ∈ (v :: vs).filter (fun u => p.length u == p.length v) :=
        List.mem_filter.mpr ⟨List.mem_cons_self _ _, by simp⟩
      have h2 : 0 < ((v :: vs).filter (fun u => p.length u == p.length v)).length :=
        List.length_pos.mpr (List.ne_nil_of_mem hvmem)
      omega
    obtain ⟨w, hw⟩ : ∃ w, (pool.filter (fun w => w.length == p.length v)).head? = some w := by
      cases hh : (pool.filter (fun w => w.length == p.length v)).head? with
      | none =>
        rw [List.head?_eq_none_iff] at hh
        rw [hh] at hpos
        simp at hpos
      | some w => exact ⟨w, rfl⟩
    have hwmem : w ∈ pool.filter (fun w => w.length == p.length v) :=
      List.mem_of_mem_head? (Option.mem_def.mpr hw)
    have hwpool : w ∈ pool := (List.mem_filter.mp hwmem).1
    have hwlen : w.length = p.length v := beq_iff_eq.mp (List.mem_filter.mp hwmem).2
    have hpd : pickDistinct p (v :: vs) pool = (v, w) :: pickDistinct p vs (pool.erase w) := by
      rw [pickDistinct, hw]
    have hnd2 : (pool.erase w).Nodup := hnd.erase w
    have hcount2 : ∀ v' ∈ vs,
        (vs.filter (fun u => p.length u == p.length v')).length ≤
        ((pool.erase w).filter (fun u => u.length == p.length v')).length := by
      intro v' hv'
      have hc := hcount v' (List.mem_cons_of_mem _ hv')
      rw [length_filter_erase (fun u => u.length == p.length v') w pool hnd hwpool]
      by_cases hlen : p.length v = p.length v'
      · have hqw : (w.length == p.length v') = true :=
          beq_iff_eq.mpr (by rw [hwlen]; exact hlen)
        rw [if_pos hqw]
        have hslots : ((v :: vs).filter (fun u => p.length u == p.length v')).length =
            (vs.filter (fun u => p.length u == p.length v')).length + 1 := by
          rw [List.filter_cons, if_pos (beq_iff_eq.mpr hlen)]
          simp
        omega
      · have hqw : (w.length == p.length v') = false :=
          beq_eq_false_iff_ne.mpr (by rw [hwlen]; exact hlen)
        rw [if_neg (by simp [hqw])]
        have hslots : ((v :: vs).filter (fun u => p.length u == p.length v')).length =
            (vs.filter (fun u => p.length u == p.length v')).length := by
          rw [List.filter_cons, if_neg (by simp [beq_eq_false_iff_ne.mpr hlen])]
        omega
    obtain ⟨ihk, ihm, ihn⟩ := ih (pool.erase w) hnd2 hcount2
    refine ⟨?_, ?_, ?_⟩
    · rw [hpd]
      rw [show keysA ((v, w) :: pickDistinct p vs (pool.erase w)) =
        v :: keysA (pickDistinct p vs (pool.erase w)) from rfl, ihk]
    · intro pr hpr
      rw [hpd] at hpr
      rcases List.mem_cons.mp hpr with h1 | h1
      · subst h1
        exact ⟨hwpool, hwlen⟩
      · obtain ⟨hmem, hlen⟩ := ihm pr h1
        exact ⟨List.mem_of_mem_erase hmem, hlen⟩
    · rw [hpd]
      rw [show ((v, w) :: pickDistinct p vs (pool.erase w)).map Prod.snd =
        w :: (pickDistinct p vs (pool.erase w)).map Prod.snd from rfl]
      apply List.Nodup.cons _ ihn
      intro hwin
      rw [List.mem_map] at hwin
      obtain ⟨pr, hpr, hpr2⟩ := hwin
      have : w ∈ pool.erase w := hpr2 ▸ (ihm pr hpr).1
      rw [hnd.erase_eq_filter w, List.mem_filter] at this
      simp at this

theorem no_overlap_satisfiable (p : Puzzle) (hwf : p.WF)
    (hnoov : ∀ u ∈ p.vars, ∀ v ∈ p.vars, p.overlaps u v = none)
    (hcount : ∀ v ∈ p.vars,
      (p.vars.filter (fun u => p.length u == p.length v)).length ≤
      (p.words.filter (fun w => w.length == p.length v)).length) :
    satisfiable p := by
  obtain ⟨hk, hm, hvn⟩ := pickDistinct_spec p p.vars p.words hwf.nodupWords hcount
  have hget : ∀ v ∈ p.vars,
      (v, (lookupA (pickDistinct p p.vars p.words) v).getD []) ∈
        pickDistinct p p.vars p.words := by
    intro v hv
    have hkm : v ∈ keysA (pickDistinct p p.vars p.words) := by rw [hk]; exact hv
    rw [← lookupA_isSome_iff] at hkm
    obtain ⟨w, hwl⟩ := Option.isSome_iff_exists.mp hkm
    rw [hwl]
    exact lookupA_mem v w _ hwl
  refine ⟨fun v => (lookupA (pickDistinct p p.vars p.words) v).getD [], ?_, ?_, ?_, ?_⟩
  · intro v hv
    exact (hm _ (hget v hv)).1
  · intro v hv
    exact (hm _ (hget v hv)).2
  · intro u hu v hv hne hfe
    exact hne (congrArg Prod.fst
      (List.inj_on_of_nodup_map hvn (hget u hu) (hget v hv) hfe))
  · intro u hu v hv
    unfold overlapFitB
    rw [hnoov u hu v hv]

/-- Claim C8, amended: a puzzle with zero overlaps among its slots succeeds
provided the vocabulary has, for each slot, at least as many words of that
slot's length as there are slots of that length (the counterexample shows
mere existence of one word per length is not enough, since assigned words
must be pairwise distinct). -/
theorem claim_C8_amended_no_overlap (p : Puzzle) (hwf : p.WF)
    (hnoov : ∀ u ∈ p.vars, ∀ v ∈ p.vars, p.overlaps u v = none)
    (hcount : ∀ v ∈ p.vars,
      (p.vars.filter (fun u => p.length u == p.length v)).length ≤
      (p.words.filter (fun w => w.length == p.length v)).length) :
    ∃ r, solve p = some r ∧ assignment_complete p r = true ∧
      consistent p r = true := by
  obtain ⟨r, hr⟩ := solve_of_satisfiable p hwf
    (no_overlap_satisfiable p hwf hnoov hcount)
  obtain ⟨h1, h2, -, -⟩ := solve_sound p r hr
  exact ⟨r, hr, h1, h2⟩

def pW8 : Puzzle where
  vars := [0, 1]
  length := fun _ => 1
  overlaps := fun _ _ => none
  words := [['a'], ['b']]

theorem pW8_wf : pW8.WF :=
  ⟨by decide, by decide, fun _ => rfl, fun x y i j h => nomatch h⟩

theorem claim_C8_witness :
    (∀ u ∈ pW8.vars, ∀ v ∈ pW8.vars, pW8.overlaps u v = none) ∧
    (∃ r, solve pW8 = some r ∧ assignment_complete pW8 r = true ∧
      consistent pW8 r = true) :=
  ⟨by decide, claim_C8_amended_no_overlap pW8 pW8_wf (by decide) (by decide)⟩
